import Mathlib

/-!
Verification development for the peerbit repository.

Shallow embedding of:
* the `Log` class (`src/packages/transport/stream-interface/src/messages.ts`,
  third concatenated document, lines 583-1428): constructor, `findHeads`,
  `difference`, `join`, `traverse`, `append`, `cutLog`;
* the transport message layer (`messages.ts`, first document): `sign`,
  `verifyMultiSig`, `Message.verify`, `ACK.sign` / `ACK.verify`;
* the shared log (`src/packages/programs/data/shared-log/src/index.ts`):
  `findLeaders`, `findLeadersFromUniformNumber`, `collectNodesAroundPoint`,
  `_modifyReplicators`, and the delivery-mode decision in `SharedLog.append`.

Machine integers of the source are modelled as `Nat` / `Int`; the JavaScript
floating point numbers used for ring offsets and replication factors are
modelled as `ℚ`; content hashes, public-key hashcodes and log ids are opaque
`String`s.  Fallible or stateful code is modelled by explicit state passing.
-/

/-! ## Entries and log state

An entry (`ipfs-log-entry/src/entry.ts`) carries its multihash, the parent
hashes `next`, the secondary reference hashes `refs`, a Lamport clock
`(id, time)` and the log id it belongs to (`metadata.idDecrypted`).  The
payload and signature material play no role in the claims below and are
omitted; the hash is treated as an opaque identifier chosen at creation. -/

structure Entry where
  hash : String
  next : List String
  refs : List String
  time : Nat
  clockId : String
  logId : String
deriving DecidableEq, Repr

/-- State of a `Log` instance: `_entryIndex` (as the list of its values),
`_headsIndex`, `_nextsIndex` (only key membership of that object is ever
read by the source, so it is kept as the list of written keys), `_length`
and the Lamport clock `(clockId, clockTime)` of the log. -/
structure LogState where
  id : String
  clockId : String
  clockTime : Nat
  entries : List Entry
  headsIndex : List Entry
  nextsIndex : List String
  length : Nat
deriving DecidableEq, Repr

def hasEntry (L : LogState) (h : String) : Bool :=
  L.entries.any (fun e => e.hash = h)

def getEntry (L : LogState) (h : String) : Option Entry :=
  L.entries.find? (fun e => e.hash = h)

/-- JavaScript `reduce(uniqueEntriesReducer, {})` / `Object.assign` semantics:
keys keep their first insertion position, a later write with the same key
overwrites the stored value in place. -/
def reduceByHash (l : List Entry) : List Entry :=
  l.foldl
    (fun acc e =>
      if acc.any (fun x => x.hash = e.hash) then
        acc.map (fun x => if x.hash = e.hash then e else x)
      else acc ++ [e])
    []

/-- Modelled from the spec: `lamport-clock.ts` is not under `src/`; per the
spec the clock is `(id, time)` and comparison is Lamport time with a lexicographic
tiebreak on the id bytes (spec sections 3 and 4.1). -/
def lamportCompare (ta : Nat) (ia : String) (tb : Nat) (ib : String) : Int :=
  if ta ≠ tb then (ta : Int) - (tb : Int)
  else if ia = ib then 0
  else if ia < ib then -1 else 1

/-- Modelled from the spec: `log-sorting.ts` is not under `src/`; the default
sort (`LastWriteWins`) orders by Lamport time, then clock id lexicographically
(spec section 3: sort order default Lamport time, then clock id lex).  This is
the strict comparator; JavaScript stable sorts with it. -/
def sortFnLt (a b : Entry) : Bool :=
  a.time < b.time || (a.time = b.time && a.clockId < b.clockId)

/-- Clock-only comparator used by `Log.findHeads` (`Clock.compare`). -/
def clockOnlyLt (a b : Entry) : Bool :=
  a.time < b.time

/-- Stable insertion sort with a strict comparator, modelling a stable
JavaScript `Array.prototype.sort`: ties keep their original relative order. -/
def insSortInsert (lt : Entry → Entry → Bool) (x : Entry) : List Entry → List Entry
  | [] => [x]
  | y :: ys => if lt x y then x :: y :: ys else y :: insSortInsert lt x ys

def insSortBy (lt : Entry → Entry → Bool) : List Entry → List Entry
  | [] => []
  | x :: xs => insSortInsert lt x (insSortBy lt xs)

/-- `Log.findHeads` (messages.ts lines 1324-1336): entries of the collection
that are not referenced in the `next` set of any entry of the collection,
sorted by clock comparison. -/
def findHeads (entries : List Entry) : List Entry :=
  let referenced := entries.foldl (fun acc e => acc ++ e.next) []
  insSortBy clockOnlyLt (entries.filter (fun e => ¬ referenced.contains e.hash))

/-- The `heads` getter: `Object.values(this._headsIndex).sort(this._sortFn).reverse()`. -/
def headsSorted (L : LogState) : List Entry :=
  (insSortBy sortFnLt L.headsIndex).reverse

/-- Fold of `maxClockTimeReducer` over a list of entries. -/
def mxT (l : List Entry) : Nat :=
  l.foldl (fun m e => max m e.time) 0

/-- The `Log` constructor (messages.ts lines 667-749) for the fields the
claims depend on: entries are deduplicated by hash, the heads index defaults
to `findHeads` over the entries (an explicit heads argument may override it),
the nexts index collects every `next` pointer, and the clock starts at the
maximum head time (a clock argument may raise it). -/
def mkLogFull (id : String) (clockId : String) (entries : List Entry)
    (heads : Option (List Entry)) (clockTime : Nat) : LogState :=
  let uniqueEntries := reduceByHash entries
  let headsList := heads.getD (findHeads uniqueEntries)
  let headsIdx := reduceByHash headsList
  let nextsIdx := uniqueEntries.foldl (fun acc e => acc ++ e.next) []
  let maxTime := max clockTime (mxT ((insSortBy sortFnLt headsIdx).reverse))
  { id := id
    clockId := clockId
    clockTime := maxTime
    entries := uniqueEntries
    headsIndex := headsIdx
    nextsIndex := nextsIdx
    length := uniqueEntries.length }

/-- Constructor with the default heads and clock arguments. -/
def mkLog (id : String) (clockId : String) (entries : List Entry) : LogState :=
  mkLogFull id clockId entries none 0

/-! ## Log.difference

`Log.difference(a, b)` (messages.ts lines 1405-1427) is a traversal from the
keys of `a`'s heads index following `next ++ refs` edges, collecting entries
that exist in `a`, are absent from `b` and carry `b`'s log id; hashes already
present in `b` are never pushed.  `stack.shift()` pops from the front and
`stack.push` appends, so the stack is a FIFO queue.  The loop always
terminates (every pushed hash is first marked as traversed); we run it on
explicit fuel that provably suffices. -/

structure DiffSt where
  stack : List String
  traversed : List String
  res : List Entry
deriving Repr

/-- One `pushToStack` call: push the hash unless already traversed or present
in `b`, and mark it as traversed when pushed. -/
def diffPush (b : LogState) (acc : List String × List String) (h : String) :
    List String × List String :=
  if h ∉ acc.2 ∧ hasEntry b h = false then (acc.1 ++ [h], acc.2 ++ [h]) else acc

def diffLoop (a b : LogState) : Nat → DiffSt → DiffSt
  | 0, s => s
  | fuel + 1, s =>
    match s.stack with
    | [] => s
    | hd :: rest =>
      match getEntry a hd with
      | some e =>
        if hasEntry b hd = false ∧ e.logId = b.id then
          let res' := if e ∈ s.res then s.res else s.res ++ [e]
          let trav0 := if e.hash ∈ s.traversed then s.traversed else s.traversed ++ [e.hash]
          let pushed := (e.next ++ e.refs).foldl (diffPush b) ([], trav0)
          diffLoop a b fuel { stack := rest ++ pushed.1, traversed := pushed.2, res := res' }
        else diffLoop a b fuel { s with stack := rest }
      | none => diffLoop a b fuel { s with stack := rest }

/-- Fuel that always suffices for `diffLoop` (proved below): every iteration
pops one element, and every pushed hash comes from the `next ++ refs` fields
of entries of `a` and is pushed at most once. -/
def diffFuel (a : LogState) : Nat :=
  a.headsIndex.length + 2 * a.entries.foldl (fun n e => n + e.next.length + e.refs.length) 0 + 1

def differenceSt (a b : LogState) : DiffSt :=
  diffLoop a b (diffFuel a)
    { stack := a.headsIndex.map (fun e => e.hash), traversed := [], res := [] }

/-- `Log.difference(a, b)`: the collected new entries (values of the result
map, in insertion order). -/
def difference (a b : LogState) : List Entry :=
  (differenceSt a b).res

/-! ## Log.join

`Log.join` (messages.ts lines 1057-1125), without the optional `size`
argument (all claims use its default `-1`, which performs no cut).  Signature
and access verification (`permitted` / `verify`) either throw — leaving no
state to observe — or pass; they do not alter the state and are not modelled. -/

def join (l other : LogState) : LogState :=
  if l.id ≠ other.id then l
  else
    let newItems := difference other l
    -- addToNextsIndex: length is incremented per new item absent from the
    -- entry index (checked against the index before the items are added)
    let lengthInc := (newItems.filter (fun e => (getEntry l e.hash).isNone)).length
    let nextsIndex' := l.nextsIndex ++ newItems.foldl (fun acc e => acc ++ e.next) []
    -- this._entryIndex.add(newItems): insert each value, replacing on equal hash
    let entries' := newItems.foldl
      (fun acc e =>
        if acc.any (fun x => x.hash = e.hash) then
          acc.map (fun x => if x.hash = e.hash then e else x)
        else acc ++ [e])
      l.entries
    let nextsFromNewItems := newItems.foldl (fun acc e => acc ++ e.next) []
    let candidates := reduceByHash (l.headsIndex ++ other.headsIndex)
    let mergedHeads :=
      ((findHeads candidates).filter
        (fun e => ¬ nextsFromNewItems.contains e.hash)).filter
        (fun e => ¬ nextsIndex'.contains e.hash)
    let headsIndex' := reduceByHash mergedHeads
    let maxClock := mxT headsIndex'
    { l with
      entries := entries'
      headsIndex := headsIndex'
      nextsIndex := nextsIndex'
      length := l.length + lengthInc
      clockTime := max l.clockTime maxClock }

/-! ## Log.traverse, values, cutLog, append -/

/-- One `addToStack` call of `traverse`: skip absent or traversed entries,
otherwise insert into the stack and re-sort it descending, marking the entry
as traversed. -/
def travAdd (acc : List Entry × List String) (e? : Option Entry) :
    List Entry × List String :=
  match e? with
  | none => acc
  | some e =>
    if acc.2.contains e.hash then acc
    else ((insSortBy sortFnLt (e :: acc.1)).reverse, acc.2 ++ [e.hash])

def travLoop (L : LogState) (amount : Int) (endHash : Option String) :
    Nat → List Entry → List String → List Entry → Nat → List Entry
  | 0, _, _, res, _ => res
  | _ + 1, [], _, res, _ => res
  | fuel + 1, e :: rest, traversed, res, count =>
    if amount ≥ 0 ∧ (amount ≤ (count : Int)) then res
    else
      let res' := if res.any (fun x => x.hash = e.hash) then res else res ++ [e]
      let traversed' := if traversed.contains e.hash then traversed else traversed ++ [e.hash]
      if endHash = some e.hash then res'
      else
        let next := (e.next.map (getEntry L)).foldl travAdd (rest, traversed')
        travLoop L amount endHash fuel next.1 next.2 res' (count + 1)

/-- `Log.traverse` (messages.ts lines 846-901): stack-based traversal of
`next` links in sort order, returning the visited entries in insertion
order.  Fuel covers the worst case of one pop per entry plus the roots. -/
def traverse (L : LogState) (roots : List Entry) (amount : Int) (endHash : Option String) :
    List Entry :=
  travLoop L amount endHash (L.entries.length + roots.length + 1)
    ((insSortBy sortFnLt roots).reverse) [] [] 0

/-- The `values` getter: all entries reachable from the heads, oldest first. -/
def valuesOf (L : LogState) : List Entry :=
  (traverse L (headsSorted L) (-1) none).reverse

/-- JavaScript `slice(-size)`: the last `size` elements, except that
`slice(-0)` is `slice(0)`, the whole list. -/
def sliceLast (l : List Entry) (size : Nat) : List Entry :=
  if size = 0 then l else l.drop (l.length - size)

/-- `Log.cutLog` (messages.ts lines 1141-1150): keep the newest `size`
reachable entries, rebuild the entry and heads indexes — but leave
`_nextsIndex` untouched (the source never resets it here). -/
def cutLog (L : LogState) (size : Nat) : LogState :=
  let tmp := sliceLast (valuesOf L) size
  let entries' := reduceByHash tmp
  { L with
    entries := entries'
    headsIndex := reduceByHash (findHeads tmp)
    length := entries'.length }

/-- The power-of-two reference schedule of `append`: for i = 1, 2, 4, ... ≤
maxDistance, the entry at index `min (i-1) (all.length-1)`, as a JavaScript
`Set` (insertion order, unique members). -/
def pow2Refs (all : List Entry) (maxDistance : Nat) : List Entry :=
  let idxs := (List.range (maxDistance + 1)).filterMap
    (fun k =>
      let i := 2 ^ k
      if i ≤ maxDistance then some (min (i - 1) (all.length - 1)) else none)
  idxs.foldl
    (fun acc i =>
      match all.get? i with
      | none => acc
      | some e => if acc.any (fun x => x.hash = e.hash) then acc else acc ++ [e])
    []

/-- `Log.append` (messages.ts lines 908-983), without the recycle policy
(none of the claims exercises it) and with the content hash of the new entry
supplied as a parameter (the source derives it from the block store).
Returns the new state and the created entry. -/
def appendLog (L : LogState) (newHash : String) (pointerCount : Nat) :
    LogState × Entry :=
  let newTime := max L.clockTime (mxT (headsSorted L)) + 1
  let all := traverse L (headsSorted L) (max (pointerCount : Int) (headsSorted L).length) none
  let references := pow2Refs all (min pointerCount all.length)
  let references' :=
    if all.length < pointerCount then
      match all.getLast? with
      | some e =>
        if references.any (fun x => x.hash = e.hash) then references else references ++ [e]
      | none => references
    else references
  let nexts := ((headsSorted L).reverse.map (fun e => e.hash)).foldl
    (fun acc h => if acc.contains h then acc else acc ++ [h]) []
  let refs := (references'.map (fun e => e.hash)).filter (fun h => ¬ nexts.contains h)
  let entry : Entry :=
    { hash := newHash, next := nexts, refs := refs,
      time := newTime, clockId := L.clockId, logId := L.id }
  let entries' :=
    if L.entries.any (fun x => x.hash = entry.hash) then
      L.entries.map (fun x => if x.hash = entry.hash then entry else x)
    else L.entries ++ [entry]
  ({ L with
      clockTime := newTime
      entries := entries'
      nextsIndex := L.nextsIndex ++ nexts
      headsIndex := [entry]
      length := L.length + 1 }, entry)

/-! ## Transport messages (messages.ts, first document)

A message is a header plus a body; the Borsh serialization of the
`@field`-annotated members is injective, so "the serialized bytes" are
modelled by the canonical pair (header, body) itself.  The `_verified`
member is not a serialized field and therefore not part of the bytes.
Key material is opaque: a signature is a `String`, signing is a function
from signed bytes to a signature, and signature verification is a
predicate supplied by the environment. -/

structure MessageHeader where
  id : Nat
  timestamp : Int
  expires : Int
  origin : Option (List String)
  «to» : List String
  signatures : Option (List String)
deriving DecidableEq, Repr

structure Msg (B : Type) where
  header : MessageHeader
  body : B
  verifiedCache : Option Bool
deriving DecidableEq, Repr

/-- The bytes covered by a signature: `sign` and `verifyMultiSig`
(messages.ts lines 161-198) clear `header.to` and `header.signatures`,
serialize, and restore — so the signed bytes are the serialization of the
message with `to = []` and no signatures. -/
def signedBytes {B : Type} (m : Msg B) : MessageHeader × B :=
  ({ m.header with «to» := [], signatures := none }, m.body)

/-- `sign` (messages.ts lines 161-175): append a signature over
`signedBytes` to the existing signature list, leaving `to` as it was. -/
def signMsg {B : Type} (m : Msg B) (signer : MessageHeader × B → String) : Msg B :=
  { m with header := { m.header with
      signatures := some ((m.header.signatures.getD []) ++ [signer (signedBytes m)]) } }

/-- `verifyMultiSig` (messages.ts lines 177-198): with no signatures the
result is `!expectSignatures`; otherwise every signature must verify against
the recomputed signed bytes. -/
def verifyMultiSig {B : Type} (vf : String → MessageHeader × B → Bool)
    (m : Msg B) (expectSignatures : Bool) : Bool :=
  match m.header.signatures with
  | none => !expectSignatures
  | some sigs =>
    if sigs.isEmpty then !expectSignatures
    else sigs.all (fun s => vf s (signedBytes m))

/-- `MessageHeader.verify` (messages.ts lines 152-155): not expired. -/
def headerVerify (h : MessageHeader) (now : Int) : Bool :=
  h.expires ≥ now

/-- `Message.verify` (messages.ts lines 226-232): return the cached
`_verified` when present, otherwise compute header validity and the
multi-signature check and cache the result. -/
def messageVerify {B : Type} (vf : String → MessageHeader × B → Bool)
    (m : Msg B) (expectSignatures : Bool) (now : Int) : Bool × Msg B :=
  match m.verifiedCache with
  | some b => (b, m)
  | none =>
    let r := headerVerify m.header now && verifyMultiSig vf m expectSignatures
    (r, { m with verifiedCache := some r })

/-- Body of an `ACK` message (messages.ts lines 349-406). -/
structure AckBody where
  messageIdToAcknowledge : Nat
  seenCounter : Nat
deriving DecidableEq, Repr

/-- `ACK.sign` (messages.ts lines 374-382): zero `seenCounter`, sign, restore. -/
def ackSign (a : Msg AckBody) (signer : MessageHeader × AckBody → String) : Msg AckBody :=
  let saved := a.body.seenCounter
  let a' := signMsg { a with body := { a.body with seenCounter := 0 } } signer
  { a' with body := { a'.body with seenCounter := saved } }

/-- `ACK.verify` (messages.ts lines 384-390): zero `seenCounter`, run the
inherited `Message.verify` (which caches), restore. -/
def ackVerify (vf : String → MessageHeader × AckBody → Bool)
    (a : Msg AckBody) (expectSignatures : Bool) (now : Int) : Bool × Msg AckBody :=
  let saved := a.body.seenCounter
  let r := messageVerify vf { a with body := { a.body with seenCounter := 0 } } expectSignatures now
  (r.1, { r.2 with body := { r.2.body with seenCounter := saved } })

/-! ## Shared log (shared-log/src/index.ts)

The replicator ring is the `_sortedPeersCache`, a list of
`ReplicatorRect { publicKey, offset, role }` sorted by offset.  `Replicator`
and `hashToUniformNumber` live in `role.ts` / `replication.ts`, which are not
under `src/`; they are modelled from the spec: a replicator carries a factor
in [0,1] and the timestamp at which it assumed that factor, and offsets are
produced by a deterministic hash-to-unit-interval function (spec section 3,
"Replication Range"). -/

/-- Modelled from the spec: `role.ts` is not under `src/`; a replicator role
is `{factor, timestamp}` (spec section 4.5 state machine). -/
structure Replicator where
  factor : ℚ
  timestamp : Int
deriving DecidableEq, Repr

/-- Modelled from the spec: `role.ts` is not under `src/`; a role is
`Observer` or `Replicator` (spec section 4.5). -/
inductive RoleState where
  | observer : RoleState
  | replicator : Replicator → RoleState
deriving DecidableEq, Repr

structure ReplicatorRect where
  publicKey : String
  offset : ℚ
  role : Replicator
deriving DecidableEq, Repr

/-- State of a `SharedLog` instance restricted to the members the claims
read.  `hashU` models `hashToUniformNumber` on public-key bytes and
`subjectCursor` models `hashToUniformNumber ∘ sha256` on the serialized
subject string — both deterministic hash functions that are not under
`src/` and are modelled from the spec as opaque pure functions.
`canReplicate` and `online` model the `_canReplicate` admission gate and
the `waitFor(publicKey)` reachability check of the environment. -/
structure SLState where
  closed : Bool
  selfHash : String
  sortedPeers : Option (List ReplicatorRect)
  totalParticipation : ℚ
  openTime : Int
  hashU : String → ℚ
  subjectCursor : String → ℚ
  canReplicate : Option (String → Replicator → Bool)
  online : String → Bool

def WAIT_FOR_ROLE_MATURITY : Int := 5000

def MAX_SAFE_INTEGER : ℚ := (9007199254740991 : ℚ)

/-- JavaScript `x % 1` for a non-negative float `x` (all offsets and cursors
are in `[0, 1)` and points are sums of such, hence non-negative). -/
def qmod1 (x : ℚ) : ℚ := x - (Rat.floor x : ℚ)

/-- Accumulator of one `collectNodesAroundPoint` call: the shared collector
set (insertion-ordered, unique), the `diffs` list of non-covering nodes and
the `matured` counter. -/
structure CollectAcc where
  collector : List String
  diffs : List (ℚ × ReplicatorRect)
  matured : Nat
deriving Repr

/-- One loop body of `collectNodesAroundPoint` (index.ts lines 984-1012):
a node whose arc covers the point (within the `0.00001` slack) joins the
collector, counting as matured when its role is older than `roleAge`;
other nodes are recorded in `diffs` with their factor-relative distance. -/
def collectNode (time roleAge : Int) (width point : ℚ) (acc : CollectAcc)
    (r : ReplicatorRect) : CollectAcc :=
  let start := qmod1 r.offset
  let absDelta := |start - point|
  let diff := min absDelta (width - absDelta)
  if diff < r.role.factor / 2 + 1 / 100000 then
    { acc with
      collector :=
        if acc.collector.contains r.publicKey then acc.collector
        else acc.collector ++ [r.publicKey]
      matured := if time - r.role.timestamp > roleAge then acc.matured + 1 else acc.matured }
  else
    { acc with
      diffs := acc.diffs ++
        [(if r.role.factor > 0 then diff / r.role.factor else MAX_SAFE_INTEGER, r)] }

/-- The walk of `collectNodesAroundPoint` starting at the head of the peer
list: nodes are visited in order with wraparound, stopping when the start
node's public key is met again — one pass over the list, cut short at any
later node sharing the head's key. -/
def collectWalk (time roleAge : Int) (width point : ℚ) :
    List ReplicatorRect → CollectAcc → CollectAcc
  | [], acc => acc
  | p :: rest, acc =>
    let acc1 := collectNode time roleAge width point acc p
    (rest.takeWhile (fun r => r.publicKey ≠ p.publicKey)).foldl
      (fun a r => collectNode time roleAge width point a r) acc1

/-- Sort of the fallback phase: stable ascending by the recorded diff
(JavaScript `diffs.sort((x, y) => x.diff - y.diff)`). -/
def diffSortInsert (x : ℚ × ReplicatorRect) :
    List (ℚ × ReplicatorRect) → List (ℚ × ReplicatorRect)
  | [] => [x]
  | y :: ys => if x.1 < y.1 then x :: y :: ys else y :: diffSortInsert x ys

def diffSort : List (ℚ × ReplicatorRect) → List (ℚ × ReplicatorRect)
  | [] => []
  | x :: xs => diffSortInsert x (diffSort xs)

/-- The fallback phase of `collectNodesAroundPoint` (index.ts lines
1014-1023): when no collected node matured, add the nearest non-covering
nodes in diff order until one matured node has been added. -/
def collectFallback (time roleAge : Int) :
    List (ℚ × ReplicatorRect) → List String → List String
  | [], collector => collector
  | d :: ds, collector =>
    let collector' :=
      if collector.contains d.2.publicKey then collector else collector ++ [d.2.publicKey]
    if time - d.2.role.timestamp > roleAge then collector'
    else collectFallback time roleAge ds collector'

/-- `collectNodesAroundPoint` (index.ts lines 959-1024), specialized to the
`findLeadersFromUniformNumber` call site where `done` is constantly false
and `onMatured` is a no-op, with the walk always starting at the list head. -/
def collectNodesAroundPoint (time roleAge : Int) (peers : List ReplicatorRect)
    (width : ℚ) (collector : List String) (point : ℚ) : List String :=
  let acc := collectWalk time roleAge width point peers
    { collector := collector, diffs := [], matured := 0 }
  if acc.matured = 0 then collectFallback time roleAge (diffSort acc.diffs) acc.collector
  else acc.collector

/-- `findLeadersFromUniformNumber` (index.ts lines 1026-1061): probe
`numberOfLeaders` evenly spaced points starting at the cursor, collecting
covering (or fallback) peers into one shared set.  `t` models the
`+new Date()` reads of the source. -/
def findLeadersFromUniformNumber (st : SLState) (cursor : ℚ) (numberOfLeaders : Nat)
    (roleAgeOpt : Option Int) (t : Int) : List String :=
  match st.sortedPeers with
  | none => []
  | some peers =>
    if peers.length = 0 then []
    else
      let n := min numberOfLeaders peers.length
      let roleAge := roleAgeOpt.getD (min WAIT_FOR_ROLE_MATURITY (t - st.openTime))
      let width : ℚ := 1
      (List.range n).foldl
        (fun collector i =>
          let point := qmod1 (cursor + (i : ℚ) / (n : ℚ)) * width
          collectNodesAroundPoint t roleAge peers width collector point)
        []

/-- `findLeaders` (index.ts lines 934-957): on a closed store, return the
own public-key hashcode as the only leader; otherwise hash the subject to a
cursor and sample the ring. -/
def findLeaders (st : SLState) (subject : String) (numberOfLeaders : Nat)
    (roleAgeOpt : Option Int) (t : Int) : List String :=
  if st.closed then [st.selfHash]
  else findLeadersFromUniformNumber st (st.subjectCursor subject) numberOfLeaders roleAgeOpt t

/-- Delivery mode of an outgoing message, with its redundancy and `to` list
(`SilentDelivery` / `AcknowledgeDelivery` as constructed by the shared log). -/
inductive SendMode where
  | silent : Nat → List String → SendMode
  | acknowledge : Nat → List String → SendMode
deriving DecidableEq, Repr

def SendMode.toList : SendMode → List String
  | .silent _ l => l
  | .acknowledge _ l => l

/-- The delivery decision of `SharedLog.append` (index.ts lines 341-358):
compute the leaders of the new entry's gid for its replica count; if the
own hashcode is among them send `ExchangeHeads` with `SilentDelivery`
(redundancy 1) to the leader list, otherwise with `AcknowledgeDelivery`
(redundancy 1) to the leader list. -/
def appendSendMode (st : SLState) (gid : String) (minReplicas : Nat) (t : Int) : SendMode :=
  let leaders := findLeaders st gid minReplicas none t
  if leaders.contains st.selfHash then SendMode.silent 1 leaders
  else SendMode.acknowledge 1 leaders

/-- Result kind of `_modifyReplicators`.  The `errorThrown` constructor
stands for the exceptional exits of the source (`sortedPeersCache`
undefined while open); an exception leaves the state unmodified. -/
inductive Changed where
  | added : Changed
  | updated : Replicator → Changed
  | removed : Replicator → Changed
  | noChange : Changed
  | errorThrown : Changed
deriving DecidableEq, Repr

/-- The insertion walk of `_modifyReplicators` (index.ts lines 1246-1286)
expressed over the peer list: at each node, an equal public key updates the
value in place; otherwise the walk continues while the new offset is larger
and inserts at the boundary (before the first node with an offset at least
as large, or at the tail).  The unreachable defensive `throw` of the source
(its guard is contradicted by the walk that just ran) is dropped. -/
def walkInsertRect (code : ℚ) (pk : String) (rect : ReplicatorRect) :
    List ReplicatorRect → Changed × List ReplicatorRect
  | [] => (Changed.added, [rect])
  | v :: vs =>
    if v.publicKey = pk then (Changed.updated v.role, rect :: vs)
    else if code > v.offset then
      match vs with
      | [] => (Changed.added, [v, rect])
      | _ :: _ =>
        let r := walkInsertRect code pk rect vs
        (r.1, v :: r.2)
    else (Changed.added, rect :: v :: vs)

/-- The removal walk of `_modifyReplicators` (index.ts lines 1291-1299):
remove the first node with the given public key. -/
def walkRemoveRect (pk : String) :
    List ReplicatorRect → Option (Replicator × List ReplicatorRect)
  | [] => none
  | v :: vs =>
    if v.publicKey = pk then some (v.role, vs)
    else
      match walkRemoveRect pk vs with
      | none => none
      | some (prev, rest) => some (prev, v :: rest)

/-- `_modifyReplicators` (index.ts lines 1204-1302): admission gate, closed
checks, then insert/update a replicator with positive factor (when the peer
is online) or remove the stored rectangle for observers and zero factors,
keeping `_totalParticipation` in sync with the stored factors. -/
def modifyReplicators (st : SLState) (role : RoleState) (pk : String) :
    Changed × SLState :=
  let blocked :=
    match role, st.canReplicate with
    | RoleState.replicator r, some can => !(can pk r)
    | _, _ => false
  if blocked then (Changed.noChange, st)
  else
    match st.sortedPeers with
    | none =>
      if st.closed = false then (Changed.errorThrown, st) else (Changed.noChange, st)
    | some sortedPeer =>
      match role with
      | RoleState.replicator r =>
        if r.factor > 0 then
          let isOnline := pk = st.selfHash || st.online pk
          if isOnline then
            let code := st.hashU pk
            let rect : ReplicatorRect := { publicKey := pk, offset := code, role := r }
            match sortedPeer with
            | [] =>
              (Changed.added,
                { st with sortedPeers := some [rect],
                          totalParticipation := st.totalParticipation + r.factor })
            | _ :: _ =>
              let res := walkInsertRect code pk rect sortedPeer
              match res.1 with
              | Changed.updated prev =>
                (Changed.updated prev,
                  { st with sortedPeers := some res.2,
                            totalParticipation :=
                              st.totalParticipation + r.factor - prev.factor })
              | _ =>
                (Changed.added,
                  { st with sortedPeers := some res.2,
                            totalParticipation := st.totalParticipation + r.factor })
          else (Changed.noChange, st)
        else
          match walkRemoveRect pk sortedPeer with
          | some (prev, rest) =>
            (Changed.removed prev,
              { st with sortedPeers := some rest,
                        totalParticipation := st.totalParticipation - prev.factor })
          | none => (Changed.noChange, st)
      | RoleState.observer =>
        match walkRemoveRect pk sortedPeer with
        | some (prev, rest) =>
          (Changed.removed prev,
            { st with sortedPeers := some rest,
                      totalParticipation := st.totalParticipation - prev.factor })
        | none => (Changed.noChange, st)

/-- Sum of the stored replication factors over the peer cache. -/
def sumFactors (l : List ReplicatorRect) : ℚ :=
  l.foldl (fun s r => s + r.role.factor) 0

/-! ## Predicates for the claims -/

/-- Same members, compared as finite sets. -/
abbrev sameEntrySet (l l' : List Entry) : Prop := l.toFinset = l'.toFinset

/-- Equality of the observable final state of a log according to claim C1:
entry set, heads index (as sets), length and clock time. -/
abbrev StateEq (s t : LogState) : Prop :=
  sameEntrySet s.entries t.entries ∧ sameEntrySet s.headsIndex t.headsIndex ∧
  s.length = t.length ∧ s.clockTime = t.clockTime

/-- No two entries of the list share a hash. -/
abbrev nodupHashes (l : List Entry) : Prop := (l.map Entry.hash).Nodup

/-- Two logs agree on entries with equal hashes (hashes are
content-addressed in the source, so equal hashes mean equal entries). -/
abbrev ConsistentLogs (a b : LogState) : Prop :=
  ∀ ea ∈ a.entries, ∀ eb ∈ b.entries, ea.hash = eb.hash → ea = eb

/-- Well-formed log state: all entries carry the log id; hashes are unique;
every `next` and `refs` reference resolves inside the log; the heads index
is exactly the entries not referenced by any entry's `next`; the nexts
index is exactly the set of referenced hashes; clocks strictly increase
from parent to child; and the recorded length is the entry count. -/
abbrev WF (L : LogState) : Prop :=
  (∀ e ∈ L.entries, e.logId = L.id) ∧
  nodupHashes L.entries ∧
  (∀ e ∈ L.entries, ∀ h ∈ e.next ++ e.refs, ∃ f ∈ L.entries, f.hash = h) ∧
  nodupHashes L.headsIndex ∧
  (∀ e ∈ L.headsIndex, e ∈ L.entries ∧ ∀ f ∈ L.entries, e.hash ∉ f.next) ∧
  (∀ e ∈ L.entries, (∀ f ∈ L.entries, e.hash ∉ f.next) → e ∈ L.headsIndex) ∧
  (∀ h ∈ L.nextsIndex, ∃ f ∈ L.entries, h ∈ f.next) ∧
  (∀ f ∈ L.entries, ∀ h ∈ f.next, h ∈ L.nextsIndex) ∧
  (∀ f ∈ L.entries, ∀ e ∈ L.entries, e.hash ∈ f.next → e.time < f.time) ∧
  L.length = L.entries.length

/-- The heads invariant as stated by claim C3: the heads index contains
exactly those entries whose hash does not appear in the next set of any
other entry currently in the log. -/
abbrev headsExact (L : LogState) : Prop :=
  (∀ e ∈ L.headsIndex, e ∈ L.entries) ∧
  (∀ e ∈ L.entries,
    (e ∈ L.headsIndex ↔ ∀ f ∈ L.entries, f.hash ≠ e.hash → e.hash ∉ f.next))

/-! ## Concrete instances used by counterexamples and witnesses -/

def entryX : Entry :=
  { hash := "x", next := [], refs := [], time := 1, clockId := "a", logId := "X" }
def entryY : Entry :=
  { hash := "y", next := ["x"], refs := [], time := 2, clockId := "a", logId := "X" }

def logEmpty : LogState := mkLog "X" "me" []
def logOnlyChild : LogState := mkLog "X" "pa" [entryY]
def logPair : LogState := mkLog "X" "pb" [entryX, entryY]
def logOnlyRoot : LogState := mkLog "X" "pa" [entryX]

def entryA : Entry :=
  { hash := "a", next := [], refs := [], time := 1, clockId := "a", logId := "X" }
def entryB : Entry :=
  { hash := "b", next := ["a"], refs := [], time := 2, clockId := "a", logId := "X" }
def entryC : Entry :=
  { hash := "c", next := [], refs := [], time := 3, clockId := "a", logId := "X" }
def entryD : Entry :=
  { hash := "d", next := [], refs := [], time := 4, clockId := "a", logId := "X" }

def logFour : LogState := mkLog "X" "me" [entryA, entryB, entryC, entryD]
def logRootOnly : LogState := mkLog "X" "pa" [entryA]

def rectA : ReplicatorRect :=
  { publicKey := "A", offset := 1/10, role := { factor := 1/100, timestamp := 100 } }
def rectB : ReplicatorRect :=
  { publicKey := "B", offset := 6/10, role := { factor := 1/100, timestamp := 0 } }

def stTiny : SLState :=
  { closed := false, selfHash := "me", sortedPeers := some [rectA, rectB],
    totalParticipation := 1/50, openTime := 0,
    hashU := fun _ => 0, subjectCursor := fun _ => 0,
    canReplicate := none, online := fun _ => true }

/-- A state with the same ring snapshot and open time as `stTiny` but
different values in every other component. -/
def stTinyAlt : SLState :=
  { closed := true, selfHash := "other", sortedPeers := some [rectA, rectB],
    totalParticipation := 0, openTime := 0,
    hashU := fun _ => 1/2, subjectCursor := fun _ => 1/2,
    canReplicate := some (fun _ _ => false), online := fun _ => false }

def rectS : ReplicatorRect :=
  { publicKey := "S", offset := 3/10, role := { factor := 1, timestamp := 0 } }
def rectP : ReplicatorRect :=
  { publicKey := "P", offset := 7/10, role := { factor := 1, timestamp := 0 } }

def stSelfLeader : SLState :=
  { closed := false, selfHash := "S", sortedPeers := some [rectS, rectP],
    totalParticipation := 2, openTime := 0,
    hashU := fun _ => 0, subjectCursor := fun _ => 3/10,
    canReplicate := none, online := fun _ => true }

def stClosed : SLState :=
  { closed := true, selfHash := "me", sortedPeers := some [rectS, rectP],
    totalParticipation := 2, openTime := 0,
    hashU := fun _ => 0, subjectCursor := fun _ => 3/10,
    canReplicate := none, online := fun _ => true }

/-- A message whose header expired at time 5, not yet verified. -/
def msgExpired : Msg Nat :=
  { header := { id := 1, timestamp := 0, expires := 5, origin := none,
                «to» := ["p"], signatures := some ["sig"] },
    body := 0,
    verifiedCache := none }

/-- A signature checker that accepts everything (used to show that an
expired message fails verification regardless of its signatures). -/
def vfAccept : String → MessageHeader × Nat → Bool := fun _ _ => true

/-! ## Predicates supporting the analysis of `difference` and `join` -/

/-- An entry that the `difference(a, b)` traversal may collect: present in
`a`, absent from `b`, carrying `b`'s log id. -/
abbrev goodFor (a b : LogState) (e : Entry) : Prop :=
  e ∈ a.entries ∧ hasEntry b e.hash = false ∧ e.logId = b.id

/-- No collectable entry of `a` carries the hash. -/
abbrev badHash (a b : LogState) (h : String) : Prop :=
  ∀ e : Entry, goodFor a b e → e.hash ≠ h

/-- Top-down reachability inside the log `a`: from an entry to one of its
(transitive) ancestors, following `next` links. -/
inductive DownReach (a : LogState) : Entry → Entry → Prop where
  | refl (e : Entry) : DownReach a e e
  | step {e f g : Entry} : DownReach a e f → g ∈ a.entries → g.hash ∈ f.next →
      DownReach a e g

/-- All hashes the `difference` traversal can ever push: the `next` and
`refs` references of the entries of `a`. -/
def pushUniverse (a : LogState) : List String :=
  a.entries.foldl (fun acc e => acc ++ e.next ++ e.refs) []

/-- Invariant of the `difference` traversal loop: collected entries are
collectable; every traversed hash is still on the stack, already collected,
or not collectable at all; and every reference of a collected entry is
either traversed or present in `b`. -/
abbrev DiffInv (a b : LogState) (s : DiffSt) : Prop :=
  (∀ e ∈ s.res, goodFor a b e) ∧
  (∀ h ∈ s.traversed, h ∈ s.stack ∨ (∃ e ∈ s.res, e.hash = h) ∨ badHash a b h) ∧
  (∀ e ∈ s.res, ∀ x ∈ e.next ++ e.refs, x ∈ s.traversed ∨ hasEntry b x = true)

/-! # Theorems -/

/-! ## Claim C6: signatures cover the header without `to`/`signatures`, plus body -/

/-- Claim C6: the signed bytes are the serialization of the message with
`header.to` set to the empty list and `header.signatures` absent; `sign`
appends a signature over exactly those bytes, verification recomputes the
same bytes, and mutating the `to` field after signing does not change
whether verification succeeds. -/
theorem sign_covers_header_without_to {B : Type} (m : Msg B)
    (signer : MessageHeader × B → String) (vf : String → MessageHeader × B → Bool)
    (expect : Bool) (to' : List String) :
    (signMsg m signer).header.signatures
        = some ((m.header.signatures.getD []) ++ [signer (signedBytes m)])
    ∧ signedBytes { m with header := { m.header with «to» := to' } } = signedBytes m
    ∧ verifyMultiSig vf { m with header := { m.header with «to» := to' } } expect
        = verifyMultiSig vf m expect :=
  ⟨rfl, rfl, rfl⟩

/-! ## Claim C7: ACK signatures are independent of `seenCounter` -/

/-- Claim C7: `ACK.sign` and `ACK.verify` zero `seenCounter` before
computing or checking the signature and restore it afterwards: the
signature is computed over the bytes with a zeroed counter, the
verification result is identical for two ACKs differing only in
`seenCounter`, and both operations leave `seenCounter` unchanged. -/
theorem ack_seenCounter_signature_invariant (a : Msg AckBody) (c' : Nat)
    (signer : MessageHeader × AckBody → String)
    (vf : String → MessageHeader × AckBody → Bool) (expect : Bool) (now : Int) :
    (ackSign a signer).header.signatures
        = some ((a.header.signatures.getD [])
            ++ [signer (signedBytes { a with body := { a.body with seenCounter := 0 } })])
    ∧ (ackVerify vf { a with body := { a.body with seenCounter := c' } } expect now).1
        = (ackVerify vf a expect now).1
    ∧ (ackVerify vf a expect now).2.body.seenCounter = a.body.seenCounter
    ∧ (ackSign a signer).body.seenCounter = a.body.seenCounter :=
  ⟨rfl, rfl, rfl, rfl⟩

/-! ## Claim C10: expired messages never verify; the result is cached -/

/-- Claim C10: a message whose header has expired fails `Message.verify`
regardless of how many valid signatures it carries (on a fresh message the
result `false` is computed and stored in `_verified`), and any cached
`_verified` value is returned unchanged by subsequent calls. -/
theorem verify_expired_false_and_cached {B : Type} (m : Msg B)
    (vf : String → MessageHeader × B → Bool) (expect : Bool) (now : Int) :
    (m.verifiedCache = none → m.header.expires < now →
      messageVerify vf m expect now = (false, { m with verifiedCache := some false }))
    ∧ (∀ b, m.verifiedCache = some b → messageVerify vf m expect now = (b, m)) := by
  constructor
  · intro h1 h2
    have hexp : ¬ (m.header.expires ≥ now) := not_le.mpr h2
    simp [messageVerify, h1, headerVerify, hexp]
  · intro b hb
    simp [messageVerify, hb]

/-- Witness for claim C10 at a concrete expired message carrying a
signature that would verify. -/
theorem verify_expired_false_and_cached_witness :
    messageVerify vfAccept msgExpired true 10
      = (false, { msgExpired with verifiedCache := some false }) :=
  (verify_expired_false_and_cached msgExpired vfAccept true 10).1 rfl (by decide)

/-! ## Claim C8: findLeaders on a closed store returns the self sentinel -/

/-- Claim C8: if the shared log is closed, `findLeaders` returns exactly
the one-element list with the local peer's own public-key hashcode, for
every subject, requested leader count and ring contents — the replicator
ring is never consulted. -/
theorem findLeaders_closed_self (st : SLState) (h : st.closed = true)
    (subject : String) (n : Nat) (opt : Option Int) (t : Int) :
    findLeaders st subject n opt t = [st.selfHash] := by
  simp [findLeaders, h]

/-- Witness for claim C8 on a closed state whose ring is nonempty. -/
theorem findLeaders_closed_self_witness :
    findLeaders stClosed "gid" 3 none 5 = [stClosed.selfHash] :=
  findLeaders_closed_self stClosed rfl "gid" 3 none 5

/-! ## Claim C4: determinism of leader sampling -/

unseal Rat.add Rat.mul Rat.inv Rat.sub in
/-- Claim C4 counterexample: the sampling procedure reads the wall clock —
with the identical ring snapshot, cursor and requested leader count, an
invocation at time 60 returns a different leader set than one at time
10000 (the maturity classification of the ring entries changes with time,
which changes the fallback collection). -/
theorem findLeaders_time_dependent_cex :
    ¬ (findLeadersFromUniformNumber stTiny (3/10) 1 none 60 =
       findLeadersFromUniformNumber stTiny (3/10) 1 none 10000) := by decide

/-- Claim C4 (amended): leader sampling is deterministic once the
evaluation time is fixed along with the snapshot — the result of
`findLeadersFromUniformNumber` depends only on the sorted ring snapshot,
the open time, the cursor, the requested count, the role-age option and
the evaluation time; no other component of the shared-log state and no
randomness enters. -/
theorem findLeaders_deterministic_same_time (st st' : SLState) (cursor : ℚ)
    (n : Nat) (opt : Option Int) (t : Int)
    (hpeers : st.sortedPeers = st'.sortedPeers) (hopen : st.openTime = st'.openTime) :
    findLeadersFromUniformNumber st cursor n opt t
      = findLeadersFromUniformNumber st' cursor n opt t := by
  simp only [findLeadersFromUniformNumber]
  rw [hpeers, hopen]

/-- Witness for the amended claim C4: two states sharing only the ring
snapshot and open time produce the same leader sample. -/
theorem findLeaders_deterministic_same_time_witness :
    findLeadersFromUniformNumber stTiny (3/10) 1 none 60
      = findLeadersFromUniformNumber stTinyAlt (3/10) 1 none 60 :=
  findLeaders_deterministic_same_time stTiny stTinyAlt (3/10) 1 none 60 rfl rfl

/-! ## Claim C5: delivery mode of the append path -/

unseal Rat.add Rat.mul Rat.inv Rat.sub in
/-- Claim C5 counterexample: when the local peer is a leader, the
`ExchangeHeads` message is sent with `SilentDelivery` whose `to` list is
the full leader list including the local peer itself — not "the other
leaders": erasing the self hash changes the list. -/
theorem append_send_to_includes_self_cex :
    appendSendMode stSelfLeader "g" 2 1000000 = SendMode.silent 1 ["S", "P"]
    ∧ stSelfLeader.selfHash ∈ (["S", "P"] : List String)
    ∧ (["S", "P"] : List String) ≠ (["S", "P"] : List String).erase stSelfLeader.selfHash := by
  refine ⟨by decide, by decide, by decide⟩

/-- Claim C5 (amended): on `SharedLog.append`, the leaders of the entry's
gid are computed; if the local peer's hash is among them the message is
sent with `SilentDelivery` and redundancy 1 to the full leader list
(which includes the local peer), otherwise with `AcknowledgeDelivery` and
redundancy 1 to the leader list. -/
theorem append_delivery_mode (st : SLState) (gid : String) (r : Nat) (t : Int) :
    (st.selfHash ∈ findLeaders st gid r none t →
      appendSendMode st gid r t = SendMode.silent 1 (findLeaders st gid r none t))
    ∧ (st.selfHash ∉ findLeaders st gid r none t →
      appendSendMode st gid r t = SendMode.acknowledge 1 (findLeaders st gid r none t)) := by
  constructor
  · intro h
    simp [appendSendMode, List.contains, h]
  · intro h
    simp [appendSendMode, List.contains, h]

unseal Rat.add Rat.mul Rat.inv Rat.sub in
/-- Witness for the amended claim C5 in the leader branch. -/
theorem append_delivery_mode_witness :
    appendSendMode stSelfLeader "g" 2 1000000
      = SendMode.silent 1 (findLeaders stSelfLeader "g" 2 none 1000000) :=
  (append_delivery_mode stSelfLeader "g" 2 1000000).1 (by decide)

/-! ## Claim C3: the heads invariant is broken by cutLog followed by join -/

/-- Claim C3 failing input: build a log from entries a ← b, c, d (times 1
to 4), cut it to the newest two entries, then join a log holding only the
root a.  `cutLog` rebuilds the entry and heads indexes but leaves
`_nextsIndex` stale (it still records a as referenced by the dropped b),
so the rejoined a — now referenced by no entry in the log — is filtered
out of the merged heads: the heads index is {c, d} although the
unreferenced entries are {a, c, d}. -/
theorem cutLog_join_heads_invariant_broken :
    ¬ headsExact (join (cutLog logFour 2) logRootOnly) := by decide

/-! ## Claim C9: `_totalParticipation` tracks the stored factors -/

theorem sumFactors_go (l : List ReplicatorRect) (init : ℚ) :
    l.foldl (fun s r => s + r.role.factor) init = init + sumFactors l := by
  induction l generalizing init with
  | nil => simp [sumFactors]
  | cons r rest ih =>
    simp only [sumFactors, List.foldl_cons] at *
    rw [ih, ih (0 + r.role.factor)]
    ring

theorem sumFactors_cons (r : ReplicatorRect) (l : List ReplicatorRect) :
    sumFactors (r :: l) = r.role.factor + sumFactors l := by
  show List.foldl (fun s r => s + r.role.factor) (0 + r.role.factor) l = _
  rw [sumFactors_go]
  ring

theorem walkInsertRect_cons (code : ℚ) (pk : String) (rect v : ReplicatorRect)
    (vs : List ReplicatorRect) :
    walkInsertRect code pk rect (v :: vs) =
      if v.publicKey = pk then (Changed.updated v.role, rect :: vs)
      else if code > v.offset then
        match vs with
        | [] => (Changed.added, [v, rect])
        | _ :: _ =>
          ((walkInsertRect code pk rect vs).1, v :: (walkInsertRect code pk rect vs).2)
      else (Changed.added, rect :: v :: vs) := by
  cases vs <;> rfl

theorem walkInsertRect_sum (code : ℚ) (pk : String) (rect : ReplicatorRect) :
    ∀ l : List ReplicatorRect,
      sumFactors (walkInsertRect code pk rect l).2 =
        (match (walkInsertRect code pk rect l).1 with
         | Changed.updated prev => sumFactors l + rect.role.factor - prev.factor
         | _ => sumFactors l + rect.role.factor) := by
  intro l
  induction l with
  | nil => simp [walkInsertRect, sumFactors_cons, sumFactors]
  | cons v vs ih =>
    by_cases h1 : v.publicKey = pk
    · rw [walkInsertRect_cons, if_pos h1]
      dsimp only
      rw [sumFactors_cons, sumFactors_cons]
      ring
    · by_cases h2 : code > v.offset
      · cases vs with
        | nil =>
          rw [walkInsertRect_cons, if_neg h1, if_pos h2]
          dsimp only
          rw [sumFactors_cons, sumFactors_cons, sumFactors_cons]
          ring
        | cons w ws =>
          rw [walkInsertRect_cons, if_neg h1, if_pos h2]
          dsimp only
          rcases hres : walkInsertRect code pk rect (w :: ws) with ⟨c, l2⟩
          rw [hres] at ih
          cases c <;>
            (dsimp only at ih ⊢; rw [sumFactors_cons, sumFactors_cons, ih]; ring)
      · rw [walkInsertRect_cons, if_neg h1, if_neg h2]
        dsimp only
        rw [sumFactors_cons, sumFactors_cons]
        ring

theorem walkRemoveRect_sum (pk : String) :
    ∀ (l : List ReplicatorRect) (prev : Replicator) (rest : List ReplicatorRect),
      walkRemoveRect pk l = some (prev, rest) →
      sumFactors rest = sumFactors l - prev.factor := by
  intro l
  induction l with
  | nil => intro prev rest h; simp [walkRemoveRect] at h
  | cons v vs ih =>
    intro prev rest h
    by_cases h1 : v.publicKey = pk
    · rw [walkRemoveRect, if_pos h1] at h
      rcases h with ⟨rfl, rfl⟩
      rw [sumFactors_cons]
      ring
    · rw [walkRemoveRect, if_neg h1] at h
      rcases hres : walkRemoveRect pk vs with _ | ⟨prev2, rest2⟩
      · rw [hres] at h; simp at h
      · rw [hres] at h
        simp only [Option.some.injEq, Prod.mk.injEq] at h
        rcases h with ⟨rfl, rfl⟩
        rw [sumFactors_cons, sumFactors_cons, ih prev2 rest2 hres]
        ring

/-- Claim C9: after every call to `_modifyReplicators` — whatever the
outcome (added, updated, removed, no change, or the defensive throw) —
`_totalParticipation` equals the sum of `role.factor` over the rectangles
stored in the sorted peers cache, provided it did before the call. -/
theorem modifyReplicators_totalParticipation (st : SLState) (role : RoleState)
    (pk : String) (l : List ReplicatorRect)
    (hpeers : st.sortedPeers = some l) (hsum : st.totalParticipation = sumFactors l) :
    ∃ l', (modifyReplicators st role pk).2.sortedPeers = some l'
        ∧ (modifyReplicators st role pk).2.totalParticipation = sumFactors l' := by
  rcases st with ⟨closed, selfHash, sortedPeers, total, openTime, hashU, subjCursor, canRep, online⟩
  dsimp only at hpeers hsum
  subst hpeers
  subst hsum
  cases role with
  | observer =>
    unfold modifyReplicators
    try dsimp only
    rcases hr : walkRemoveRect pk l with _ | ⟨prev, rest⟩ <;> try dsimp only
    · exact ⟨l, rfl, rfl⟩
    · exact ⟨rest, rfl, (walkRemoveRect_sum pk l prev rest hr).symm⟩
  | replicator r =>
    cases canRep with
    | none =>
      unfold modifyReplicators
      dsimp only
      simp only [Bool.false_eq_true, if_false]
      by_cases hf : r.factor > 0
      · rw [if_pos hf]
        by_cases hon : (decide (pk = selfHash) || online pk) = true
        · rw [if_pos hon]
          cases l with
          | nil =>
            refine ⟨_, rfl, ?_⟩
            dsimp only
            rw [sumFactors_cons]
            show sumFactors [] + r.factor = r.factor + sumFactors []
            ring
          | cons v vs =>
            dsimp only
            have hsum2 := walkInsertRect_sum (hashU pk) pk
              ⟨pk, hashU pk, r⟩ (v :: vs)
            rcases hres : walkInsertRect (hashU pk) pk
                ⟨pk, hashU pk, r⟩ (v :: vs) with ⟨c, l2⟩
            rw [hres] at hsum2
            cases c <;>
              · dsimp only at hsum2 ⊢
                exact ⟨l2, rfl, hsum2.symm⟩
        · rw [if_neg hon]
          exact ⟨l, rfl, rfl⟩
      · rw [if_neg hf]
        rcases hr : walkRemoveRect pk l with _ | ⟨prev, rest⟩ <;> try dsimp only
        · exact ⟨l, rfl, rfl⟩
        · exact ⟨rest, rfl, (walkRemoveRect_sum pk l prev rest hr).symm⟩
    | some can =>
      by_cases hb : can pk r
      · unfold modifyReplicators
        dsimp only
        rw [show (!(can pk r)) = false by simp [hb]]
        simp only [Bool.false_eq_true, if_false]
        by_cases hf : r.factor > 0
        · rw [if_pos hf]
          by_cases hon : (decide (pk = selfHash) || online pk) = true
          · rw [if_pos hon]
            cases l with
            | nil =>
              refine ⟨_, rfl, ?_⟩
              dsimp only
              rw [sumFactors_cons]
              show sumFactors [] + r.factor = r.factor + sumFactors []
              ring
            | cons v vs =>
              dsimp only
              have hsum2 := walkInsertRect_sum (hashU pk) pk
                ⟨pk, hashU pk, r⟩ (v :: vs)
              rcases hres : walkInsertRect (hashU pk) pk
                  ⟨pk, hashU pk, r⟩ (v :: vs) with ⟨c, l2⟩
              rw [hres] at hsum2
              cases c <;>
                · dsimp only at hsum2 ⊢
                  exact ⟨l2, rfl, hsum2.symm⟩
          · rw [if_neg hon]
            exact ⟨l, rfl, rfl⟩
        · rw [if_neg hf]
          rcases hr : walkRemoveRect pk l with _ | ⟨prev, rest⟩ <;> try dsimp only
          · exact ⟨l, rfl, rfl⟩
          · exact ⟨rest, rfl, (walkRemoveRect_sum pk l prev rest hr).symm⟩
      · unfold modifyReplicators
        dsimp only
        rw [show (!(can pk r)) = true by simp [hb]]
        simp only [if_true]
        exact ⟨l, rfl, rfl⟩

/-- Witness for claim C9: inserting a new replicator into a two-peer ring
preserves the sum invariant. -/
theorem modifyReplicators_totalParticipation_witness :
    ∃ l', (modifyReplicators stTiny
            (RoleState.replicator { factor := 1/2, timestamp := 7 }) "C").2.sortedPeers
            = some l'
        ∧ (modifyReplicators stTiny
            (RoleState.replicator { factor := 1/2, timestamp := 7 }) "C").2.totalParticipation
            = sumFactors l' :=
  modifyReplicators_totalParticipation stTiny
    (RoleState.replicator { factor := 1/2, timestamp := 7 }) "C" [rectA, rectB]
    rfl (by norm_num [stTiny, sumFactors, rectA, rectB])

/-! ## Claim C2: append extends the clock past every parent -/

theorem insSortInsert_perm (lt : Entry → Entry → Bool) (x : Entry) (l : List Entry) :
    (insSortInsert lt x l).Perm (x :: l) := by
  induction l with
  | nil => simp [insSortInsert]
  | cons y ys ih =>
    rw [insSortInsert]
    by_cases h : lt x y
    · rw [if_pos h]
    · rw [if_neg h]
      exact (ih.cons y).trans (List.Perm.swap x y ys)

theorem insSortBy_perm (lt : Entry → Entry → Bool) (l : List Entry) :
    (insSortBy lt l).Perm l := by
  induction l with
  | nil => simp [insSortBy]
  | cons x xs ih =>
    exact (insSortInsert_perm lt x (insSortBy lt xs)).trans (ih.cons x)

theorem mem_insSortBy {lt : Entry → Entry → Bool} {x : Entry} {l : List Entry} :
    x ∈ insSortBy lt l ↔ x ∈ l :=
  (insSortBy_perm lt l).mem_iff

theorem mxT_go (l : List Entry) (init : Nat) :
    l.foldl (fun m e => max m e.time) init = max init (mxT l) := by
  induction l generalizing init with
  | nil => simp [mxT]
  | cons e es ih =>
    show es.foldl _ (max init e.time) = _
    rw [ih]
    show _ = max init (es.foldl _ (max 0 e.time))
    rw [ih (max 0 e.time)]
    omega

theorem mxT_cons (e : Entry) (l : List Entry) : mxT (e :: l) = max e.time (mxT l) := by
  show l.foldl _ (max 0 e.time) = _
  rw [mxT_go]
  omega

theorem le_mxT {e : Entry} {l : List Entry} (h : e ∈ l) : e.time ≤ mxT l := by
  induction l with
  | nil => cases h
  | cons f fs ih =>
    rw [mxT_cons]
    rcases List.mem_cons.mp h with rfl | h2
    · omega
    · have := ih h2
      omega

theorem mxT_le {l : List Entry} {c : Nat} (h : ∀ e ∈ l, e.time ≤ c) : mxT l ≤ c := by
  induction l with
  | nil => simp [mxT]
  | cons f fs ih =>
    rw [mxT_cons]
    have h1 := h f (List.mem_cons_self f fs)
    have h2 := ih (fun e he => h e (List.mem_cons_of_mem f he))
    omega

theorem mxT_congr {l l' : List Entry} (h : ∀ x, x ∈ l ↔ x ∈ l') : mxT l = mxT l' := by
  apply Nat.le_antisymm
  · exact mxT_le (fun e he => le_mxT ((h e).mp he))
  · exact mxT_le (fun e he => le_mxT ((h e).mpr he))

theorem mem_dedupFold (l : List String) (acc : List String) (x : String) :
    (x ∈ l.foldl (fun a h => if a.contains h then a else a ++ [h]) acc) ↔
      x ∈ acc ∨ x ∈ l := by
  induction l generalizing acc with
  | nil => simp
  | cons h hs ih =>
    show (x ∈ hs.foldl _ (if acc.contains h then acc else acc ++ [h])) ↔ _
    by_cases hc : acc.contains h
    · rw [if_pos hc, ih]
      have hmem : h ∈ acc := List.elem_iff.mp hc
      constructor
      · rintro (h1 | h1)
        · exact Or.inl h1
        · exact Or.inr (List.mem_cons_of_mem _ h1)
      · rintro (h1 | h1)
        · exact Or.inl h1
        · rcases List.mem_cons.mp h1 with rfl | h2
          · exact Or.inl hmem
          · exact Or.inr h2
    · rw [if_neg hc, ih]
      simp only [List.mem_append, List.mem_cons, List.mem_singleton]
      tauto

theorem eq_of_nodupHashes {es : List Entry} (hnd : nodupHashes es) {p q : Entry}
    (hp : p ∈ es) (hq : q ∈ es) (h : p.hash = q.hash) : p = q := by
  induction es with
  | nil => cases hp
  | cons f fs ih =>
    have hnd2 : nodupHashes fs := (List.nodup_cons.mp hnd).2
    have hf : f.hash ∉ fs.map Entry.hash := (List.nodup_cons.mp hnd).1
    rcases List.mem_cons.mp hp with rfl | hp2 <;> rcases List.mem_cons.mp hq with rfl | hq2
    · rfl
    · exact absurd (h ▸ List.mem_map_of_mem Entry.hash hq2) hf
    · exact absurd (h ▸ List.mem_map_of_mem Entry.hash hp2) hf
    · exact ih hnd2 hp2 hq2

/-- Claim C2: `Log.append` assigns the new entry a clock time equal to
`max(local clock time, max head time) + 1` and sets its `next` to the
current heads; consequently the new entry's clock is strictly greater than
the clock of every parent referenced in its `next` set under Lamport
comparison.  The hypotheses state the structural invariants every log
reachable by the public operations satisfies: entry hashes are unique and
the heads index points into the entry index. -/
theorem append_clock_gt_parents (L : LogState) (newHash : String) (ptr : Nat)
    (hnd : nodupHashes L.entries) (hheads : ∀ q ∈ L.headsIndex, q ∈ L.entries) :
    ((appendLog L newHash ptr).2.time = max L.clockTime (mxT L.headsIndex) + 1)
    ∧ (∀ h, h ∈ (appendLog L newHash ptr).2.next ↔ ∃ q ∈ L.headsIndex, q.hash = h)
    ∧ (∀ p ∈ L.entries, p.hash ∈ (appendLog L newHash ptr).2.next →
        0 < lamportCompare (appendLog L newHash ptr).2.time
              (appendLog L newHash ptr).2.clockId p.time p.clockId) := by
  have hmx : mxT (headsSorted L) = mxT L.headsIndex := by
    apply mxT_congr
    intro x
    simp [headsSorted, List.mem_reverse, mem_insSortBy]
  have hnext : ∀ h, h ∈ (appendLog L newHash ptr).2.next ↔ ∃ q ∈ L.headsIndex, q.hash = h := by
    intro h
    show h ∈ (((headsSorted L).reverse.map (fun e => e.hash)).foldl _ []) ↔ _
    rw [mem_dedupFold]
    simp [headsSorted, List.mem_reverse, mem_insSortBy, List.mem_map]
  refine ⟨?_, hnext, ?_⟩
  · show max L.clockTime (mxT (headsSorted L)) + 1 = _
    rw [hmx]
  · intro p hp hpn
    rcases (hnext p.hash).mp hpn with ⟨q, hq, hqh⟩
    have hpq : p = q := eq_of_nodupHashes hnd hp (hheads q hq) hqh.symm
    have hqt : q.time ≤ mxT L.headsIndex := le_mxT hq
    have hlt : p.time < max L.clockTime (mxT (headsSorted L)) + 1 := by
      rw [hmx, hpq]
      omega
    show 0 < lamportCompare (max L.clockTime (mxT (headsSorted L)) + 1) _ p.time _
    rw [lamportCompare, if_pos (by omega : max L.clockTime (mxT (headsSorted L)) + 1 ≠ p.time)]
    omega

/-- Witness for claim C2 on the two-entry log {x, y}. -/
theorem append_clock_gt_parents_witness :
    ((appendLog logPair "z" 1).2.time = max logPair.clockTime (mxT logPair.headsIndex) + 1)
    ∧ (∀ h, h ∈ (appendLog logPair "z" 1).2.next ↔ ∃ q ∈ logPair.headsIndex, q.hash = h)
    ∧ (∀ p ∈ logPair.entries, p.hash ∈ (appendLog logPair "z" 1).2.next →
        0 < lamportCompare (appendLog logPair "z" 1).2.time
              (appendLog logPair "z" 1).2.clockId p.time p.clockId) :=
  append_clock_gt_parents logPair "z" 1 (by decide) (by decide)

/-! ## Claim C1 counterexample: join is not commutative in general -/

/-- Claim C1 counterexample: with L the empty log, A a log holding only the
child entry y (whose parent x it does not hold), and B a log holding both x
and y — all with log id X — `L.join(A).join(B)` ends with entry set {y} and
length 1, while `L.join(B).join(A)` ends with {x, y} and length 2: the
`difference` traversal of B prunes at y (already present after joining A)
and never reaches x.  So join is not commutative on arbitrary logs. -/
theorem join_not_commutative_cex :
    logOnlyChild.id = logEmpty.id ∧ logPair.id = logEmpty.id ∧
    ¬ StateEq (join (join logEmpty logOnlyChild) logPair)
              (join (join logEmpty logPair) logOnlyChild) := by
  refine ⟨rfl, rfl, ?_⟩
  decide

/-! ## Claim C1 (amended): the well-formed join theory

Utility lemmas about the entry index, the fold-based index constructions
and `findHeads`. -/

theorem hasEntry_true_iff {L : LogState} {h : String} :
    hasEntry L h = true ↔ ∃ e ∈ L.entries, e.hash = h := by
  simp [hasEntry, List.any_eq_true]

theorem hasEntry_false_iff {L : LogState} {h : String} :
    hasEntry L h = false ↔ ∀ e ∈ L.entries, e.hash ≠ h := by
  rw [← Bool.not_eq_true, hasEntry_true_iff]
  push_neg
  rfl

theorem getEntry_some {L : LogState} {s : String} {e : Entry}
    (h : getEntry L s = some e) : e ∈ L.entries ∧ e.hash = s := by
  refine ⟨List.mem_of_find?_eq_some h, ?_⟩
  have := List.find?_some h
  simpa using this

theorem getEntry_none_iff {L : LogState} {s : String} :
    getEntry L s = none ↔ ∀ e ∈ L.entries, e.hash ≠ s := by
  rw [getEntry, List.find?_eq_none]
  constructor
  · intro h e he
    have := h e he
    simpa using this
  · intro h e he
    simpa using h e he

theorem getEntry_isNone_iff {L : LogState} {s : String} :
    (getEntry L s).isNone = true ↔ hasEntry L s = false := by
  rw [Option.isNone_iff_eq_none, getEntry_none_iff, hasEntry_false_iff]

theorem mem_nextFold (items : List Entry) (acc : List String) (x : String) :
    x ∈ items.foldl (fun a e => a ++ e.next) acc ↔
      x ∈ acc ∨ ∃ e ∈ items, x ∈ e.next := by
  induction items generalizing acc with
  | nil => simp
  | cons e es ih =>
    show x ∈ es.foldl _ (acc ++ e.next) ↔ _
    rw [ih]
    simp only [List.mem_append, List.mem_cons]
    constructor
    · rintro ((h | h) | ⟨f, hf, hx⟩)
      · exact Or.inl h
      · exact Or.inr ⟨e, Or.inl rfl, h⟩
      · exact Or.inr ⟨f, Or.inr hf, hx⟩
    · rintro (h | ⟨f, (rfl | hf), hx⟩)
      · exact Or.inl (Or.inl h)
      · exact Or.inl (Or.inr hx)
      · exact Or.inr ⟨f, hf, hx⟩

theorem mem_pushUniverse {a : LogState} {e : Entry} {x : String}
    (he : e ∈ a.entries) (hx : x ∈ e.next ++ e.refs) : x ∈ pushUniverse a := by
  have main : ∀ (items : List Entry) (acc : List String),
      (x ∈ items.foldl (fun acc e => acc ++ e.next ++ e.refs) acc ↔
        x ∈ acc ∨ ∃ f ∈ items, x ∈ f.next ++ f.refs) := by
    intro items
    induction items with
    | nil => simp
    | cons f fs ih =>
      intro acc
      show x ∈ fs.foldl _ (acc ++ f.next ++ f.refs) ↔ _
      rw [ih]
      simp only [List.mem_append, List.mem_cons]
      constructor
      · rintro (((h | h) | h) | ⟨g, hg, hx2⟩)
        · exact Or.inl h
        · exact Or.inr ⟨f, Or.inl rfl, Or.inl h⟩
        · exact Or.inr ⟨f, Or.inl rfl, Or.inr h⟩
        · exact Or.inr ⟨g, Or.inr hg, by simpa using hx2⟩
      · rintro (h | ⟨g, (rfl | hg), hx2⟩)
        · exact Or.inl (Or.inl (Or.inl h))
        · rcases hx2 with h2 | h2
          · exact Or.inl (Or.inl (Or.inr h2))
          · exact Or.inl (Or.inr h2)
        · exact Or.inr ⟨g, hg, by simpa using hx2⟩
  exact (main a.entries []).mpr (Or.inr ⟨e, he, hx⟩)

theorem mem_findHeads {lst : List Entry} {e : Entry} :
    e ∈ findHeads lst ↔ e ∈ lst ∧ ¬ ∃ f ∈ lst, e.hash ∈ f.next := by
  rw [findHeads]
  rw [mem_insSortBy, List.mem_filter]
  constructor
  · rintro ⟨h1, h2⟩
    refine ⟨h1, ?_⟩
    rintro ⟨f, hf, hx⟩
    have hm : e.hash ∈ lst.foldl (fun acc e => acc ++ e.next) [] :=
      (mem_nextFold lst [] e.hash).mpr (Or.inr ⟨f, hf, hx⟩)
    simp only [decide_eq_true_eq] at h2
    exact h2 (List.elem_eq_true_of_mem hm)
  · rintro ⟨h1, h2⟩
    refine ⟨h1, ?_⟩
    simp only [decide_eq_true_eq]
    intro hc
    have hm := List.mem_of_elem_eq_true hc
    exact h2 (by simpa using (mem_nextFold lst [] e.hash).mp hm)

theorem mem_map_replace {l : List Entry} {p : Entry → Prop} [DecidablePred p] {v x : Entry}
    (h : x ∈ l.map (fun y => if p y then v else y)) : x ∈ l ∨ x = v := by
  rcases List.mem_map.mp h with ⟨y, hy, hyx⟩
  by_cases hf : p y
  · rw [if_pos hf] at hyx
    exact Or.inr hyx.symm
  · rw [if_neg hf] at hyx
    exact Or.inl (hyx ▸ hy)

theorem reduceFold_mem :
    ∀ (items acc : List Entry) (e : Entry),
      e ∈ items.foldl
        (fun acc e =>
          if acc.any (fun x => x.hash = e.hash) then
            acc.map (fun x => if x.hash = e.hash then e else x)
          else acc ++ [e]) acc →
      e ∈ acc ∨ e ∈ items := by
  intro items
  induction items with
  | nil => intro acc e h; exact Or.inl h
  | cons it its ih =>
    intro acc e h
    rcases ih _ e h with h2 | h2
    · dsimp only at h2
      split at h2
      · rcases mem_map_replace (p := fun x => x.hash = it.hash) h2 with h3 | rfl
        · exact Or.inl h3
        · exact Or.inr (List.mem_cons_self _ _)
      · rcases List.mem_append.mp h2 with h3 | h3
        · exact Or.inl h3
        · exact Or.inr (List.mem_cons.mpr (Or.inl (by simpa using h3)))
    · exact Or.inr (List.mem_cons_of_mem _ h2)

theorem reduceFold_mem_of :
    ∀ (items acc : List Entry) (e : Entry),
      (∀ x, (x ∈ acc ∨ x ∈ items) → ∀ y, (y ∈ acc ∨ y ∈ items) → x.hash = y.hash → x = y) →
      (e ∈ acc ∨ e ∈ items) →
      e ∈ items.foldl
        (fun acc e =>
          if acc.any (fun x => x.hash = e.hash) then
            acc.map (fun x => if x.hash = e.hash then e else x)
          else acc ++ [e]) acc := by
  intro items
  induction items with
  | nil =>
    intro acc e _ he
    rcases he with h | h
    · exact h
    · cases h
  | cons it its ih =>
    intro acc e hc he
    show e ∈ its.foldl _
      (if acc.any (fun x => x.hash = it.hash) then
        acc.map (fun x => if x.hash = it.hash then it else x)
      else acc ++ [it])
    have hstep : ∀ x, (x ∈ (if acc.any (fun x => x.hash = it.hash) then
        acc.map (fun x => if x.hash = it.hash then it else x)
      else acc ++ [it]) ∨ x ∈ its) → x ∈ acc ∨ x ∈ it :: its := by
      intro x hx
      rcases hx with hx | hx
      · split at hx
        · rcases mem_map_replace (p := fun y => y.hash = it.hash) hx with h3 | rfl
          · exact Or.inl h3
          · exact Or.inr (List.mem_cons_self _ _)
        · rcases List.mem_append.mp hx with h3 | h3
          · exact Or.inl h3
          · exact Or.inr (List.mem_cons.mpr (Or.inl (by simpa using h3)))
      · exact Or.inr (List.mem_cons_of_mem _ hx)
    apply ih
    · intro x hx y hy hxy
      exact hc x (hstep x hx) y (hstep y hy) hxy
    · rcases he with he | he
      · left
        split
        · next hany =>
            by_cases heq : e.hash = it.hash
            · have heit : e = it :=
                hc e (Or.inl he) it (Or.inr (List.mem_cons_self _ _)) heq
              subst heit
              exact List.mem_map.mpr ⟨e, he, by simp⟩
            · exact List.mem_map.mpr ⟨e, he, by simp [heq]⟩
        · exact List.mem_append.mpr (Or.inl he)
      · rcases List.mem_cons.mp he with rfl | he2
        · left
          split
          · next hany =>
              rcases List.any_eq_true.mp hany with ⟨y, hy, hyh⟩
              have hyh2 : y.hash = e.hash := by simpa using hyh
              have hye : y = e :=
                hc y (Or.inl hy) e (Or.inr (List.mem_cons_self _ _)) hyh2
              subst hye
              exact List.mem_map.mpr ⟨y, hy, by simp⟩
          · exact List.mem_append.mpr (Or.inr (List.mem_singleton.mpr rfl))
        · exact Or.inr he2

theorem mem_reduceByHash {lst : List Entry}
    (hc : ∀ x ∈ lst, ∀ y ∈ lst, x.hash = y.hash → x = y) {e : Entry} :
    e ∈ reduceByHash lst ↔ e ∈ lst := by
  constructor
  · intro h
    rcases reduceFold_mem lst [] e h with h2 | h2
    · cases h2
    · exact h2
  · intro h
    apply reduceFold_mem_of lst [] e
    · intro x hx y hy hxy
      rcases hx with hx | hx
      · cases hx
      · rcases hy with hy | hy
        · cases hy
        · exact hc x hx y hy hxy
    · exact Or.inr h

theorem map_replace_hashes (acc : List Entry) (e : Entry) :
    (acc.map (fun x => if x.hash = e.hash then e else x)).map Entry.hash
      = acc.map Entry.hash := by
  induction acc with
  | nil => rfl
  | cons a as ih =>
    simp only [List.map_cons, ih]
    by_cases h : a.hash = e.hash
    · rw [if_pos h]
      simp [h]
    · rw [if_neg h]

theorem reduceFold_nodup :
    ∀ (items acc : List Entry), nodupHashes acc →
      nodupHashes (items.foldl
        (fun acc e =>
          if acc.any (fun x => x.hash = e.hash) then
            acc.map (fun x => if x.hash = e.hash then e else x)
          else acc ++ [e]) acc) := by
  intro items
  induction items with
  | nil => intro acc h; exact h
  | cons it its ih =>
    intro acc h
    show nodupHashes (its.foldl _
      (if acc.any (fun x => x.hash = it.hash) then
        acc.map (fun x => if x.hash = it.hash then it else x)
      else acc ++ [it]))
    apply ih
    split
    · show ((acc.map (fun x => if x.hash = it.hash then it else x)).map Entry.hash).Nodup
      rw [map_replace_hashes]
      exact h
    · next hany =>
        show ((acc ++ [it]).map Entry.hash).Nodup
        rw [List.map_append]
        simp only [List.map_singleton]
        rw [List.nodup_append]
        refine ⟨h, List.nodup_singleton _, ?_⟩
        intro y hy
        simp only [List.mem_singleton]
        rcases List.mem_map.mp hy with ⟨z, hz, rfl⟩
        intro heq
        exact hany (List.any_eq_true.mpr ⟨z, hz, by simp [heq]⟩)

theorem reduceByHash_nodup (lst : List Entry) : nodupHashes (reduceByHash lst) :=
  reduceFold_nodup lst [] (by simp [nodupHashes])

theorem entryAdd_eq_append :
    ∀ (items base : List Entry),
      (∀ e ∈ items, base.any (fun x => x.hash = e.hash) = false) →
      nodupHashes items →
      items.foldl
        (fun acc e =>
          if acc.any (fun x => x.hash = e.hash) then
            acc.map (fun x => if x.hash = e.hash then e else x)
          else acc ++ [e]) base = base ++ items := by
  intro items
  induction items with
  | nil => intro base _ _; simp
  | cons it its ih =>
    intro base hdisj hnd
    have h0 : base.any (fun x => x.hash = it.hash) = false :=
      hdisj it (List.mem_cons_self _ _)
    show its.foldl _
      (if base.any (fun x => x.hash = it.hash) then
        base.map (fun x => if x.hash = it.hash then it else x)
      else base ++ [it]) = _
    rw [h0]
    simp only [Bool.false_eq_true, if_false]
    have hhd : it.hash ∉ its.map Entry.hash := by
      have := (List.nodup_cons.mp (show (it.hash :: its.map Entry.hash).Nodup from hnd)).1
      exact this
    rw [ih (base ++ [it]) ?hdisj ?hnd]
    · simp
    case hdisj =>
      intro e he
      have h1 : base.any (fun x => x.hash = e.hash) = false :=
        hdisj e (List.mem_cons_of_mem _ he)
      have h2 : ¬ (it.hash = e.hash) := by
        intro heq
        exact hhd (heq ▸ List.mem_map_of_mem Entry.hash he)
      rw [List.any_append, h1]
      simp [h2]
    case hnd =>
      exact (List.nodup_cons.mp (show (it.hash :: its.map Entry.hash).Nodup from hnd)).2

theorem diffPush_fold_spec (b : LogState) :
    ∀ (xs l0 t0 : List String),
      ∃ ns : List String,
        xs.foldl (diffPush b) (l0, t0) = (l0 ++ ns, t0 ++ ns) ∧
        ns.Nodup ∧ (∀ x ∈ ns, x ∉ t0) ∧ (∀ x ∈ ns, x ∈ xs) ∧
        (∀ x ∈ ns, hasEntry b x = false) ∧
        (∀ x ∈ xs, x ∈ t0 ++ ns ∨ hasEntry b x = true) := by
  intro xs
  induction xs with
  | nil =>
    intro l0 t0
    exact ⟨[], by simp, List.nodup_nil, by simp, by simp, by simp, by simp⟩
  | cons x xs ih =>
    intro l0 t0
    by_cases hx : x ∉ t0 ∧ hasEntry b x = false
    · have hstep : diffPush b (l0, t0) x = (l0 ++ [x], t0 ++ [x]) := by
        rw [diffPush, if_pos hx]
      obtain ⟨ns, h1, h2, h3, h4, h5, h6⟩ := ih (l0 ++ [x]) (t0 ++ [x])
      refine ⟨x :: ns, ?_, ?_, ?_, ?_, ?_, ?_⟩
      · show xs.foldl (diffPush b) (diffPush b (l0, t0) x) = _
        rw [hstep, h1]
        simp
      · refine List.nodup_cons.mpr ⟨?_, h2⟩
        intro hin
        exact h3 x hin (by simp)
      · intro y hy
        rcases List.mem_cons.mp hy with rfl | hy2
        · exact hx.1
        · intro hyt
          exact h3 y hy2 (List.mem_append.mpr (Or.inl hyt))
      · intro y hy
        rcases List.mem_cons.mp hy with rfl | hy2
        · exact List.mem_cons_self _ _
        · exact List.mem_cons_of_mem _ (h4 y hy2)
      · intro y hy
        rcases List.mem_cons.mp hy with rfl | hy2
        · exact hx.2
        · exact h5 y hy2
      · intro y hy
        rcases List.mem_cons.mp hy with rfl | hy2
        · exact Or.inl (List.mem_append.mpr (Or.inr (List.mem_cons_self _ _)))
        · rcases h6 y hy2 with h7 | h7
          · left
            rcases List.mem_append.mp h7 with h8 | h8
            · rcases List.mem_append.mp h8 with h9 | h9
              · exact List.mem_append.mpr (Or.inl h9)
              · exact List.mem_append.mpr (Or.inr (by simpa using Or.inl (List.mem_singleton.mp h9)))
            · exact List.mem_append.mpr (Or.inr (List.mem_cons_of_mem _ h8))
          · exact Or.inr h7
    · have hstep : diffPush b (l0, t0) x = (l0, t0) := by
        rw [diffPush, if_neg hx]
      obtain ⟨ns, h1, h2, h3, h4, h5, h6⟩ := ih l0 t0
      refine ⟨ns, ?_, h2, h3, ?_, h5, ?_⟩
      · show xs.foldl (diffPush b) (diffPush b (l0, t0) x) = _
        rw [hstep, h1]
      · intro y hy
        exact List.mem_cons_of_mem _ (h4 y hy)
      · intro y hy
        rcases List.mem_cons.mp hy with rfl | hy2
        · rcases Decidable.not_and_iff_or_not.mp hx with h7 | h7
          · have : y ∈ t0 := Decidable.not_not.mp h7
            exact Or.inl (List.mem_append.mpr (Or.inl this))
          · exact Or.inr (Bool.not_eq_false _ ▸ Bool.of_not_eq_false h7)
        · exact h6 y hy2

theorem diffLoop_succ (a b : LogState) (fuel : Nat) (s : DiffSt) :
    diffLoop a b (fuel + 1) s =
      match s.stack with
      | [] => s
      | hd :: rest =>
        match getEntry a hd with
        | some e =>
          if hasEntry b hd = false ∧ e.logId = b.id then
            let res' := if e ∈ s.res then s.res else s.res ++ [e]
            let trav0 := if e.hash ∈ s.traversed then s.traversed else s.traversed ++ [e.hash]
            let pushed := (e.next ++ e.refs).foldl (diffPush b) ([], trav0)
            diffLoop a b fuel { stack := rest ++ pushed.1, traversed := pushed.2, res := res' }
          else diffLoop a b fuel { s with stack := rest }
        | none => diffLoop a b fuel { s with stack := rest } := by
  rw [diffLoop]



theorem diffLoop_res_mono (a b : LogState) :
    ∀ (fuel : Nat) (s : DiffSt) (e : Entry), e ∈ s.res → e ∈ (diffLoop a b fuel s).res := by
  intro fuel
  induction fuel with
  | zero => intro s e h; exact h
  | succ f ih =>
    intro s e h
    obtain ⟨stack, trav, res⟩ := s
    rw [diffLoop_succ]
    rcases stack with _ | ⟨hd, rest⟩
    · exact h
    · dsimp only
      rcases hget : getEntry a hd with _ | en
      · exact ih _ e h
      · dsimp only
        by_cases hcond : hasEntry b hd = false ∧ en.logId = b.id
        · rw [if_pos hcond]
          apply ih
          dsimp only
          split
          · exact h
          · exact List.mem_append.mpr (Or.inl h)
        · rw [if_neg hcond]
          exact ih _ e h
theorem badHash_of_getEntry_none {a b : LogState} {hd : String}
    (hget : getEntry a hd = none) : badHash a b hd :=
  fun e hg => getEntry_none_iff.mp hget e hg.1

theorem badHash_of_cond_false {a b : LogState} {hd : String} {e : Entry}
    (hnd : nodupHashes a.entries) (hget : getEntry a hd = some e)
    (hcond : ¬ (hasEntry b hd = false ∧ e.logId = b.id)) :
    badHash a b hd := by
  intro f hgf hfh
  obtain ⟨he1, he2⟩ := getEntry_some hget
  have hfe : f = e := eq_of_nodupHashes hnd hgf.1 he1 (by rw [hfh, he2])
  subst hfe
  exact hcond ⟨hfh ▸ hgf.2.1, hgf.2.2⟩

theorem diffInv_pop_step {a b : LogState} {hd : String} {rest trav : List String}
    {res : List Entry} (hbad : badHash a b hd)
    (hinv : DiffInv a b ⟨hd :: rest, trav, res⟩) :
    DiffInv a b ⟨rest, trav, res⟩ := by
  obtain ⟨hs, ht, hr⟩ := hinv
  refine ⟨hs, ?_, hr⟩
  intro h hmem
  rcases ht h hmem with hst | hres | hb
  · rcases List.mem_cons.mp hst with rfl | h2
    · exact Or.inr (Or.inr hbad)
    · exact Or.inl h2
  · exact Or.inr (Or.inl hres)
  · exact Or.inr (Or.inr hb)

theorem diffInv_good_step {a b : LogState} {hd : String} {rest trav : List String}
    {res : List Entry} {e : Entry} {res' : List Entry} {trav0 : List String}
    (hget : getEntry a hd = some e) (hbs : hasEntry b hd = false) (hid : e.logId = b.id)
    (hres' : ∀ f, f ∈ res' ↔ f ∈ res ∨ f = e)
    (htrav0 : ∀ h, h ∈ trav0 ↔ h ∈ trav ∨ h = e.hash)
    (hinv : DiffInv a b ⟨hd :: rest, trav, res⟩) :
    DiffInv a b
      { stack := rest ++ ((e.next ++ e.refs).foldl (diffPush b) ([], trav0)).1,
        traversed := ((e.next ++ e.refs).foldl (diffPush b) ([], trav0)).2,
        res := res' } := by
  obtain ⟨hget1, hget2⟩ := getEntry_some hget
  have hgood : goodFor a b e := ⟨hget1, hget2 ▸ hbs, hid⟩
  obtain ⟨ns, hfold, hnsnd, hnst, hnsx, hnsb, hcov⟩ :=
    diffPush_fold_spec b (e.next ++ e.refs) [] trav0
  rw [hfold]
  obtain ⟨hsound, htinv, hrinv⟩ := hinv
  have heres' : e ∈ res' := (hres' e).mpr (Or.inr rfl)
  refine ⟨?_, ?_, ?_⟩
  · intro f hf
    rcases (hres' f).mp hf with h2 | rfl
    · exact hsound f h2
    · exact hgood
  · intro h hmem
    dsimp only at hmem
    rcases List.mem_append.mp hmem with h1 | h1
    · rcases (htrav0 h).mp h1 with h2 | rfl
      · rcases htinv h h2 with hst | hres | hb
        · rcases List.mem_cons.mp hst with rfl | h3
          · exact Or.inr (Or.inl ⟨e, heres', hget2⟩)
          · exact Or.inl (List.mem_append.mpr (Or.inl h3))
        · rcases hres with ⟨f, hf, hfh⟩
          exact Or.inr (Or.inl ⟨f, (hres' f).mpr (Or.inl hf), hfh⟩)
        · exact Or.inr (Or.inr hb)
      · exact Or.inr (Or.inl ⟨e, heres', rfl⟩)
    · refine Or.inl ?_
      dsimp only
      exact List.mem_append.mpr (Or.inr (by simpa using h1))
  · intro f hf x hx
    rcases (hres' f).mp hf with h2 | rfl
    · rcases hrinv f h2 x hx with h3 | h3
      · refine Or.inl ?_
        dsimp only
        exact List.mem_append.mpr (Or.inl ((htrav0 x).mpr (Or.inl h3)))
      · exact Or.inr h3
    · rcases hcov x hx with h3 | h3
      · exact Or.inl h3
      · exact Or.inr h3

theorem diffLoop_inv (a b : LogState) (hnd : nodupHashes a.entries) :
    ∀ (fuel : Nat) (s : DiffSt), DiffInv a b s → DiffInv a b (diffLoop a b fuel s) := by
  intro fuel
  induction fuel with
  | zero => intro s h; exact h
  | succ f ih =>
    intro s hinv
    obtain ⟨stack, trav, res⟩ := s
    rw [diffLoop_succ]
    rcases stack with _ | ⟨hd, rest⟩
    · exact hinv
    · dsimp only
      rcases hget : getEntry a hd with _ | en
      · exact ih _ (diffInv_pop_step (badHash_of_getEntry_none hget) hinv)
      · dsimp only
        by_cases hcond : hasEntry b hd = false ∧ en.logId = b.id
        · rw [if_pos hcond]
          apply ih
          dsimp only
          apply diffInv_good_step hget hcond.1 hcond.2 ?_ ?_ hinv
          · intro f2
            split
            · next hin => exact ⟨fun h2 => Or.inl h2, fun h2 => h2.elim id (fun h3 => h3 ▸ hin)⟩
            · simp [List.mem_append, List.mem_singleton]
          · intro h2
            split
            · next hin => exact ⟨fun h3 => Or.inl h3, fun h3 => h3.elim id (fun h4 => h4 ▸ hin)⟩
            · simp [List.mem_append, List.mem_singleton]
        · rw [if_neg hcond]
          exact ih _ (diffInv_pop_step (badHash_of_cond_false hnd hget hcond) hinv)

theorem diffLoop_stack_covered (a b : LogState) (hnd : nodupHashes a.entries) :
    ∀ (fuel : Nat) (s : DiffSt), (diffLoop a b fuel s).stack = [] →
      ∀ h ∈ s.stack, (∃ e ∈ (diffLoop a b fuel s).res, e.hash = h) ∨ badHash a b h := by
  intro fuel
  induction fuel with
  | zero =>
    intro s hemp h hmem
    rw [show diffLoop a b 0 s = s from rfl] at hemp
    rw [hemp] at hmem
    cases hmem
  | succ f ih =>
    intro s hemp h hmem
    obtain ⟨stack, trav, res⟩ := s
    rw [diffLoop_succ] at hemp ⊢
    dsimp only at hmem
    rcases stack with _ | ⟨hd, rest⟩
    · cases hmem
    · dsimp only at hemp ⊢
      rcases hget : getEntry a hd with _ | en
      · rw [hget] at hemp
        rcases List.mem_cons.mp hmem with rfl | h2
        · exact Or.inr (badHash_of_getEntry_none hget)
        · exact ih _ hemp h h2
      · rw [hget] at hemp
        dsimp only at hemp ⊢
        by_cases hcond : hasEntry b hd = false ∧ en.logId = b.id
        · rw [if_pos hcond] at hemp ⊢
          rcases List.mem_cons.mp hmem with rfl | h2
          · left
            refine ⟨en, ?_, (getEntry_some hget).2⟩
            apply diffLoop_res_mono
            dsimp only
            split
            · next hin => exact hin
            · exact List.mem_append.mpr (Or.inr (List.mem_singleton.mpr rfl))
          · exact ih _ hemp h (List.mem_append.mpr (Or.inl h2))
        · rw [if_neg hcond] at hemp ⊢
          rcases List.mem_cons.mp hmem with rfl | h2
          · exact Or.inr (badHash_of_cond_false hnd hget hcond)
          · exact ih _ hemp h h2

theorem diffLoop_res_nodup (a b : LogState) :
    ∀ (fuel : Nat) (s : DiffSt), s.res.Nodup → (diffLoop a b fuel s).res.Nodup := by
  intro fuel
  induction fuel with
  | zero => intro s h; exact h
  | succ f ih =>
    intro s h
    obtain ⟨stack, trav, res⟩ := s
    rw [diffLoop_succ]
    rcases stack with _ | ⟨hd, rest⟩
    · exact h
    · dsimp only
      rcases hget : getEntry a hd with _ | en
      · exact ih _ h
      · dsimp only
        by_cases hcond : hasEntry b hd = false ∧ en.logId = b.id
        · rw [if_pos hcond]
          apply ih
          dsimp only
          split
          · exact h
          · next hin =>
            refine List.Nodup.append h (List.nodup_singleton en) ?_
            intro x hx hxe
            exact hin ((List.mem_singleton.mp hxe) ▸ hx)
        · rw [if_neg hcond]
          exact ih _ h

theorem pushUniverse_length (a : LogState) :
    (pushUniverse a).length
      = a.entries.foldl (fun n e => n + e.next.length + e.refs.length) 0 := by
  have main : ∀ (items : List Entry) (acc : List String),
      (items.foldl (fun acc e => acc ++ e.next ++ e.refs) acc).length
        = items.foldl (fun n e => n + e.next.length + e.refs.length) acc.length := by
    intro items
    induction items with
    | nil => intro acc; rfl
    | cons f fs ih =>
      intro acc
      show (fs.foldl _ (acc ++ f.next ++ f.refs)).length = _
      rw [ih]
      rw [List.length_append, List.length_append]
      rfl
  simpa only [List.length_nil] using main a.entries []

theorem diffLoop_stack_empty (a b : LogState) :
    ∀ (fuel : Nat) (s : DiffSt),
      s.stack.length + 2 * ((pushUniverse a).toFinset \ s.traversed.toFinset).card < fuel →
      (diffLoop a b fuel s).stack = [] := by
  intro fuel
  induction fuel with
  | zero => intro s h; exact absurd h (Nat.not_lt_zero _)
  | succ f ih =>
    intro s hm
    obtain ⟨stack, trav, res⟩ := s
    rw [diffLoop_succ]
    dsimp only at hm
    rcases stack with _ | ⟨hd, rest⟩
    · rfl
    · simp only [List.length_cons] at hm
      dsimp only
      rcases hget : getEntry a hd with _ | en
      · apply ih
        dsimp only
        omega
      · dsimp only
        by_cases hcond : hasEntry b hd = false ∧ en.logId = b.id
        · rw [if_pos hcond]
          obtain ⟨hg1, _⟩ := getEntry_some hget
          have htsub : ∀ x ∈ trav,
              x ∈ (if en.hash ∈ trav then trav else trav ++ [en.hash]) := by
            intro x hx
            split
            · exact hx
            · exact List.mem_append.mpr (Or.inl hx)
          generalize htr : (if en.hash ∈ trav then trav else trav ++ [en.hash]) = trav0 at htsub ⊢
          obtain ⟨ns, hfold, hnsnd, hnst, hnsx, _, _⟩ :=
            diffPush_fold_spec b (en.next ++ en.refs) [] trav0
          rw [hfold]
          apply ih
          dsimp only
          have hmemU : ∀ x ∈ ns, x ∈ pushUniverse a :=
            fun x hx => mem_pushUniverse hg1 (hnsx x hx)
          have hNsub : ns.toFinset ⊆ (pushUniverse a).toFinset \ trav0.toFinset := by
            intro x hx
            rw [List.mem_toFinset] at hx
            rw [Finset.mem_sdiff, List.mem_toFinset, List.mem_toFinset]
            exact ⟨hmemU x hx, hnst x hx⟩
          have hTsub : trav.toFinset ⊆ trav0.toFinset := by
            intro x hx
            rw [List.mem_toFinset] at hx ⊢
            exact htsub x hx
          have hkey :
              (((pushUniverse a).toFinset \ trav0.toFinset) \ ns.toFinset).card
                  + ns.toFinset.card
                = ((pushUniverse a).toFinset \ trav0.toFinset).card :=
            Finset.card_sdiff_add_card_eq_card hNsub
          have hcardN : ns.toFinset.card = ns.length := List.toFinset_card_of_nodup hnsnd
          have hc0 : ((pushUniverse a).toFinset \ trav0.toFinset).card
              ≤ ((pushUniverse a).toFinset \ trav.toFinset).card :=
            Finset.card_le_card (Finset.sdiff_subset_sdiff (Finset.Subset.refl _) hTsub)
          have hsplit : (pushUniverse a).toFinset \ (trav0 ++ ns).toFinset
              = ((pushUniverse a).toFinset \ trav0.toFinset) \ ns.toFinset := by
            ext x
            simp only [Finset.mem_sdiff, List.mem_toFinset, List.mem_append]
            tauto
          rw [hsplit]
          simp only [List.length_append, List.length_nil]
          omega
        · rw [if_neg hcond]
          apply ih
          dsimp only
          omega

theorem differenceSt_stack_empty (a b : LogState) : (differenceSt a b).stack = [] := by
  apply diffLoop_stack_empty
  dsimp only
  rw [List.length_map]
  have h1 : ((pushUniverse a).toFinset \ ([] : List String).toFinset).card
      ≤ (pushUniverse a).length :=
    le_trans (Finset.card_le_card Finset.sdiff_subset) (pushUniverse a).toFinset_card_le
  rw [pushUniverse_length] at h1
  show _ < a.headsIndex.length
      + 2 * a.entries.foldl (fun n e => n + e.next.length + e.refs.length) 0 + 1
  omega

theorem difference_inv (a b : LogState) (hnd : nodupHashes a.entries) :
    DiffInv a b (differenceSt a b) :=
  diffLoop_inv a b hnd _ _ ⟨by simp, by simp, by simp⟩

theorem difference_heads_covered (a b : LogState) (hnd : nodupHashes a.entries)
    {hd : Entry} (hmem : hd ∈ a.headsIndex) :
    (∃ e ∈ difference a b, e.hash = hd.hash) ∨ badHash a b hd.hash :=
  diffLoop_stack_covered a b hnd (diffFuel a)
    { stack := a.headsIndex.map (fun e => e.hash), traversed := [], res := [] }
    (differenceSt_stack_empty a b) hd.hash (List.mem_map_of_mem _ hmem)

theorem difference_nodupHashes (a b : LogState) (hnd : nodupHashes a.entries) :
    nodupHashes (difference a b) := by
  have hnodup : (difference a b).Nodup :=
    diffLoop_res_nodup a b (diffFuel a) _ List.nodup_nil
  have hsound := (difference_inv a b hnd).1
  refine List.Nodup.map_on ?_ hnodup
  intro p hp q hq hpq
  exact eq_of_nodupHashes hnd (hsound p hp).1 (hsound q hq).1 hpq

theorem downReach_mem {a : LogState} {e f : Entry} (h : DownReach a e f)
    (he : e ∈ a.entries) : f ∈ a.entries := by
  induction h with
  | refl => exact he
  | step _ hg _ _ => exact hg

theorem down_b_closed {a b : LogState} (hcons : ConsistentLogs a b)
    (hcb : ∀ e ∈ b.entries, ∀ h ∈ e.next, ∃ f ∈ b.entries, f.hash = h)
    {e g : Entry} (hr : DownReach a e g) (hea : e ∈ a.entries)
    (he : hasEntry b e.hash = true) : hasEntry b g.hash = true := by
  induction hr with
  | refl => exact he
  | step hpath hg hn ih =>
    obtain ⟨fb, hfb, hfbh⟩ := hasEntry_true_iff.mp ih
    have hfa : _ ∈ a.entries := downReach_mem hpath hea
    have hfeq := hcons _ hfa fb hfb hfbh.symm
    obtain ⟨gb, hgb, hgbh⟩ := hcb fb hfb _ (hfeq ▸ hn)
    exact hasEntry_true_iff.mpr ⟨gb, hgb, hgbh⟩

theorem wf_reach {a : LogState} (hwf : WF a) :
    ∀ e ∈ a.entries, ∃ hd ∈ a.headsIndex, DownReach a hd e := by
  obtain ⟨_, _, _, _, _, h6, _, _, h9, _⟩ := hwf
  have main : ∀ (k : Nat), ∀ e ∈ a.entries, mxT a.entries + 1 - e.time ≤ k →
      ∃ hd ∈ a.headsIndex, DownReach a hd e := by
    intro k
    induction k with
    | zero =>
      intro e he hk
      have := le_mxT he
      omega
    | succ k ih =>
      intro e he hk
      by_cases hun : ∀ f ∈ a.entries, e.hash ∉ f.next
      · exact ⟨e, h6 e he hun, DownReach.refl e⟩
      · push_neg at hun
        obtain ⟨f, hf, hn⟩ := hun
        have hlt : e.time < f.time := h9 f hf e he hn
        have hfm := le_mxT hf
        obtain ⟨hd, hhd, hpath⟩ := ih f hf (by omega)
        exact ⟨hd, hhd, DownReach.step hpath he hn⟩
  intro e he
  exact main (mxT a.entries + 1 - e.time) e he (le_refl _)

theorem down_time_le {a : LogState}
    (h9 : ∀ f ∈ a.entries, ∀ e ∈ a.entries, e.hash ∈ f.next → e.time < f.time)
    {e g : Entry} (hr : DownReach a e g) (he : e ∈ a.entries) : g.time ≤ e.time := by
  induction hr with
  | refl => exact le_refl _
  | step hpath hg hn ih =>
    exact le_trans (le_of_lt (h9 _ (downReach_mem hpath he) _ hg hn)) ih

theorem mxT_heads_eq {L : LogState} (hwf : WF L) : mxT L.headsIndex = mxT L.entries := by
  apply Nat.le_antisymm
  · exact mxT_le (fun e he => le_mxT (hwf.2.2.2.2.1 e he).1)
  · refine mxT_le (fun e he => ?_)
    obtain ⟨hd, hhd, hpath⟩ := wf_reach hwf e he
    have hhda : hd ∈ L.entries := (hwf.2.2.2.2.1 hd hhd).1
    exact le_trans (down_time_le hwf.2.2.2.2.2.2.2.2.1 hpath hhda) (le_mxT hhd)

theorem difference_eq {a b : LogState} (hwa : WF a)
    (hcb : ∀ e ∈ b.entries, ∀ h ∈ e.next, ∃ f ∈ b.entries, f.hash = h)
    (hcons : ConsistentLogs a b) (hid : a.id = b.id) (e : Entry) :
    e ∈ difference a b ↔ e ∈ a.entries ∧ hasEntry b e.hash = false := by
  have hnd : nodupHashes a.entries := hwa.2.1
  obtain ⟨hsound, htinv, hrinv⟩ := difference_inv a b hnd
  constructor
  · intro h
    exact ⟨(hsound e h).1, (hsound e h).2.1⟩
  · rintro ⟨hea, heb⟩
    obtain ⟨hd, hhd, hpath⟩ := wf_reach hwa e hea
    have hhda : hd ∈ a.entries := (hwa.2.2.2.2.1 hd hhd).1
    have main : ∀ g : Entry, DownReach a hd g → hasEntry b g.hash = false →
        g ∈ difference a b := by
      intro g hg
      induction hg with
      | refl =>
        intro hb0
        have hgood : goodFor a b hd := ⟨hhda, hb0, hid ▸ hwa.1 hd hhda⟩
        rcases difference_heads_covered a b hnd hhd with ⟨r, hr, hrh⟩ | hbad
        · have hrhd : r = hd := eq_of_nodupHashes hnd (hsound r hr).1 hhda hrh
          exact hrhd ▸ hr
        · exact absurd rfl (hbad hd hgood)
      | step hpath2 hg2 hn2 ih =>
        rename_i f g2
        intro hb0
        have hfa : f ∈ a.entries := downReach_mem hpath2 hhda
        have hbf : hasEntry b f.hash = false := by
          cases hx : hasEntry b f.hash with
          | false => rfl
          | true =>
            have hgb := down_b_closed hcons hcb
              (DownReach.step (DownReach.refl f) hg2 hn2) hfa hx
            rw [hgb] at hb0
            cases hb0
        have hfres : f ∈ difference a b := ih hbf
        rcases hrinv f hfres g2.hash (List.mem_append.mpr (Or.inl hn2)) with htr | hbt
        · rcases htinv _ htr with hst | ⟨r, hr, hrh⟩ | hbad
          · rw [differenceSt_stack_empty] at hst
            cases hst
          · have hrg : r = g2 := eq_of_nodupHashes hnd (hsound r hr).1 hg2 hrh
            exact hrg ▸ hr
          · exact absurd rfl (hbad g2 ⟨hg2, hb0, hid ▸ hwa.1 g2 hg2⟩)
        · rw [hbt] at hb0
          cases hb0
    exact main e hpath heb

theorem join_id (l other : LogState) : (join l other).id = l.id := by
  rw [join]
  split <;> rfl

theorem join_fields {l other : LogState} (hid : l.id = other.id) :
    join l other =
      { id := l.id
        clockId := l.clockId
        clockTime := max l.clockTime (mxT (reduceByHash
          (((findHeads (reduceByHash (l.headsIndex ++ other.headsIndex))).filter
            (fun e => ¬ ((difference other l).foldl
              (fun (acc : List String) (e : Entry) => acc ++ e.next) []).contains e.hash)).filter
            (fun e => ¬ (l.nextsIndex ++ (difference other l).foldl
              (fun (acc : List String) (e : Entry) => acc ++ e.next) []).contains e.hash))))
        entries := (difference other l).foldl
          (fun acc e =>
            if acc.any (fun x => x.hash = e.hash) then
              acc.map (fun x => if x.hash = e.hash then e else x)
            else acc ++ [e]) l.entries
        headsIndex := reduceByHash
          (((findHeads (reduceByHash (l.headsIndex ++ other.headsIndex))).filter
            (fun e => ¬ ((difference other l).foldl
              (fun (acc : List String) (e : Entry) => acc ++ e.next) []).contains e.hash)).filter
            (fun e => ¬ (l.nextsIndex ++ (difference other l).foldl
              (fun (acc : List String) (e : Entry) => acc ++ e.next) []).contains e.hash))
        nextsIndex := l.nextsIndex ++ (difference other l).foldl (fun (acc : List String) (e : Entry) => acc ++ e.next) []
        length := l.length
          + ((difference other l).filter (fun e => (getEntry l e.hash).isNone)).length } := by
  rw [join, if_neg (not_not_intro hid)]

theorem contains_iff_mem (L : List String) (h : String) : L.contains h = true ↔ h ∈ L := by
  show List.elem h L = true ↔ h ∈ L
  exact List.elem_iff

theorem wf_heads_iff {L : LogState} (hwf : WF L) (e : Entry) :
    e ∈ L.headsIndex ↔ e ∈ L.entries ∧ ∀ f ∈ L.entries, e.hash ∉ f.next := by
  constructor
  · intro h
    exact hwf.2.2.2.2.1 e h
  · rintro ⟨h1, h2⟩
    exact hwf.2.2.2.2.2.1 e h1 h2

theorem consistent_symm {a b : LogState} (h : ConsistentLogs a b) : ConsistentLogs b a :=
  fun eb hb ea ha hh => (h ea ha eb hb hh.symm).symm

theorem consistent_self {a : LogState} (hnd : nodupHashes a.entries) : ConsistentLogs a a :=
  fun ea ha eb hb hh => eq_of_nodupHashes hnd ha hb hh

theorem consistent_join_right {x l other : LogState}
    (hmem : ∀ e, e ∈ (join l other).entries ↔ e ∈ l.entries ∨ e ∈ other.entries)
    (hxl : ConsistentLogs x l) (hxo : ConsistentLogs x other) :
    ConsistentLogs x (join l other) := by
  intro ea ha eb hb hh
  rcases (hmem eb).mp hb with h | h
  · exact hxl ea ha eb h hh
  · exact hxo ea ha eb h hh

theorem stateEq_of_wf {s t : LogState} (hws : WF s) (hwt : WF t)
    (hmem : ∀ e, e ∈ s.entries ↔ e ∈ t.entries) (hclk : s.clockTime = t.clockTime) :
    StateEq s t := by
  have hset : s.entries.toFinset = t.entries.toFinset := by
    ext x
    rw [List.mem_toFinset, List.mem_toFinset]
    exact hmem x
  refine ⟨hset, ?_, ?_, hclk⟩
  · ext x
    rw [List.mem_toFinset, List.mem_toFinset, wf_heads_iff hws, wf_heads_iff hwt]
    constructor
    · rintro ⟨h1, h2⟩
      exact ⟨(hmem x).mp h1, fun f hf => h2 f ((hmem f).mpr hf)⟩
    · rintro ⟨h1, h2⟩
      exact ⟨(hmem x).mpr h1, fun f hf => h2 f ((hmem f).mp hf)⟩
  · have hnd1 : s.entries.Nodup := List.Nodup.of_map Entry.hash hws.2.1
    have hnd2 : t.entries.Nodup := List.Nodup.of_map Entry.hash hwt.2.1
    have hcard := congrArg Finset.card hset
    rw [List.toFinset_card_of_nodup hnd1, List.toFinset_card_of_nodup hnd2] at hcard
    rw [hws.2.2.2.2.2.2.2.2.2, hwt.2.2.2.2.2.2.2.2.2]
    exact hcard

theorem join_spec {l other : LogState} (hwl : WF l) (hwo : WF other)
    (hcons : ConsistentLogs other l) (hid : l.id = other.id) :
    WF (join l other) ∧
    (∀ e, e ∈ (join l other).entries ↔ e ∈ l.entries ∨ e ∈ other.entries) ∧
    (join l other).clockTime = max l.clockTime (mxT (join l other).entries) := by
  have hcb : ∀ e ∈ l.entries, ∀ h ∈ e.next, ∃ f ∈ l.entries, f.hash = h :=
    fun e he h hh => hwl.2.2.1 e he h (List.mem_append.mpr (Or.inl hh))
  have hD : ∀ e, e ∈ difference other l ↔ e ∈ other.entries ∧ hasEntry l e.hash = false :=
    difference_eq hwo hcb hcons hid.symm
  have hDnd : nodupHashes (difference other l) := difference_nodupHashes other l hwo.2.1
  have hDdisj : ∀ e ∈ difference other l,
      l.entries.any (fun x => x.hash = e.hash) = false :=
    fun e he => ((hD e).mp he).2
  have hentries : (join l other).entries = l.entries ++ difference other l := by
    rw [join_fields hid]
    exact entryAdd_eq_append _ l.entries hDdisj hDnd
  have hmem : ∀ e, e ∈ (join l other).entries ↔ e ∈ l.entries ∨ e ∈ other.entries := by
    intro e
    rw [hentries, List.mem_append]
    constructor
    · rintro (h | h)
      · exact Or.inl h
      · exact Or.inr ((hD e).mp h).1
    · rintro (h | h)
      · exact Or.inl h
      · cases hx : hasEntry l e.hash with
        | false => exact Or.inr ((hD e).mpr ⟨h, hx⟩)
        | true =>
          obtain ⟨x, hxl, hxh⟩ := hasEntry_true_iff.mp hx
          have hex : e = x := hcons e h x hxl hxh.symm
          exact Or.inl (by rw [hex]; exact hxl)
  have hndJ : nodupHashes (join l other).entries := by
    rw [hentries]
    show ((l.entries ++ difference other l).map Entry.hash).Nodup
    rw [List.map_append]
    refine List.Nodup.append hwl.2.1 hDnd ?_
    intro x hx1 hx2
    obtain ⟨p, hp, hph⟩ := List.mem_map.mp hx1
    obtain ⟨q, hq, hqh⟩ := List.mem_map.mp hx2
    have hfq := ((hD q).mp hq).2
    have htq : hasEntry l q.hash = true :=
      hasEntry_true_iff.mpr ⟨p, hp, by rw [hph, ← hqh]⟩
    rw [htq] at hfq
    cases hfq
  have hnextJ : (join l other).nextsIndex = l.nextsIndex
      ++ (difference other l).foldl (fun (acc : List String) (e : Entry) => acc ++ e.next) [] := by
    rw [join_fields hid]
  have hnext : ∀ x, x ∈ (join l other).nextsIndex
      ↔ ∃ f ∈ (join l other).entries, x ∈ f.next := by
    intro x
    rw [hnextJ, List.mem_append, mem_nextFold]
    constructor
    · rintro (h | h | ⟨f, hf, hx⟩)
      · obtain ⟨f, hf, hx⟩ := hwl.2.2.2.2.2.2.1 x h
        exact ⟨f, (hmem f).mpr (Or.inl hf), hx⟩
      · cases h
      · refine ⟨f, ?_, hx⟩
        rw [hentries]
        exact List.mem_append.mpr (Or.inr hf)
    · rintro ⟨f, hf, hx⟩
      rw [hentries, List.mem_append] at hf
      rcases hf with hf | hf
      · exact Or.inl (hwl.2.2.2.2.2.2.2.1 f hf x hx)
      · exact Or.inr (Or.inr ⟨f, hf, hx⟩)
  have hheadsJ : (join l other).headsIndex = reduceByHash
      (((findHeads (reduceByHash (l.headsIndex ++ other.headsIndex))).filter
        (fun e => ¬ ((difference other l).foldl
          (fun (acc : List String) (e : Entry) => acc ++ e.next) []).contains e.hash)).filter
        (fun e => ¬ (l.nextsIndex ++ (difference other l).foldl
          (fun (acc : List String) (e : Entry) => acc ++ e.next) []).contains e.hash)) := by
    rw [join_fields hid]
  have hCmem : ∀ e ∈ l.headsIndex ++ other.headsIndex, e ∈ (join l other).entries := by
    intro e he
    rcases List.mem_append.mp he with h | h
    · exact (hmem e).mpr (Or.inl (hwl.2.2.2.2.1 e h).1)
    · exact (hmem e).mpr (Or.inr (hwo.2.2.2.2.1 e h).1)
  have hCcons : ∀ x ∈ l.headsIndex ++ other.headsIndex,
      ∀ y ∈ l.headsIndex ++ other.headsIndex, x.hash = y.hash → x = y :=
    fun x hx y hy hxy => eq_of_nodupHashes hndJ (hCmem x hx) (hCmem y hy) hxy
  have hcand : ∀ e, e ∈ reduceByHash (l.headsIndex ++ other.headsIndex)
      ↔ e ∈ l.headsIndex ++ other.headsIndex := fun e => mem_reduceByHash hCcons
  have hMH_iff : ∀ e,
      e ∈ ((findHeads (reduceByHash (l.headsIndex ++ other.headsIndex))).filter
        (fun e => ¬ ((difference other l).foldl
          (fun (acc : List String) (e : Entry) => acc ++ e.next) []).contains e.hash)).filter
        (fun e => ¬ (l.nextsIndex ++ (difference other l).foldl
          (fun (acc : List String) (e : Entry) => acc ++ e.next) []).contains e.hash)
      ↔ e ∈ findHeads (reduceByHash (l.headsIndex ++ other.headsIndex))
        ∧ ¬ (∃ g ∈ difference other l, e.hash ∈ g.next)
        ∧ ¬ (e.hash ∈ l.nextsIndex ∨ ∃ g ∈ difference other l, e.hash ∈ g.next) := by
    intro e
    rw [List.mem_filter, List.mem_filter]
    simp only [decide_eq_true_eq]
    have c1 : ((difference other l).foldl
        (fun (acc : List String) (e : Entry) => acc ++ e.next) []).contains e.hash = true
        ↔ (∃ g ∈ difference other l, e.hash ∈ g.next) := by
      rw [contains_iff_mem, mem_nextFold]
      simp
    have c2 : (l.nextsIndex ++ (difference other l).foldl
        (fun (acc : List String) (e : Entry) => acc ++ e.next) []).contains e.hash = true
        ↔ (e.hash ∈ l.nextsIndex ∨ ∃ g ∈ difference other l, e.hash ∈ g.next) := by
      rw [contains_iff_mem, List.mem_append, mem_nextFold]
      simp
    rw [c1, c2]
    tauto
  have hMHC : ∀ e, e ∈ ((findHeads (reduceByHash (l.headsIndex ++ other.headsIndex))).filter
        (fun e => ¬ ((difference other l).foldl
          (fun (acc : List String) (e : Entry) => acc ++ e.next) []).contains e.hash)).filter
        (fun e => ¬ (l.nextsIndex ++ (difference other l).foldl
          (fun (acc : List String) (e : Entry) => acc ++ e.next) []).contains e.hash)
      → e ∈ l.headsIndex ++ other.headsIndex := by
    intro e he
    exact (hcand e).mp (mem_findHeads.mp ((hMH_iff e).mp he).1).1
  have hMHcons : ∀ x ∈ ((findHeads (reduceByHash (l.headsIndex ++ other.headsIndex))).filter
        (fun e => ¬ ((difference other l).foldl
          (fun (acc : List String) (e : Entry) => acc ++ e.next) []).contains e.hash)).filter
        (fun e => ¬ (l.nextsIndex ++ (difference other l).foldl
          (fun (acc : List String) (e : Entry) => acc ++ e.next) []).contains e.hash),
      ∀ y ∈ ((findHeads (reduceByHash (l.headsIndex ++ other.headsIndex))).filter
        (fun e => ¬ ((difference other l).foldl
          (fun (acc : List String) (e : Entry) => acc ++ e.next) []).contains e.hash)).filter
        (fun e => ¬ (l.nextsIndex ++ (difference other l).foldl
          (fun (acc : List String) (e : Entry) => acc ++ e.next) []).contains e.hash),
      x.hash = y.hash → x = y :=
    fun x hx y hy hxy => hCcons x (hMHC x hx) y (hMHC y hy) hxy
  have hheads : ∀ e, e ∈ (join l other).headsIndex ↔
      e ∈ (join l other).entries ∧ ∀ f ∈ (join l other).entries, e.hash ∉ f.next := by
    intro e
    rw [hheadsJ, mem_reduceByHash hMHcons, hMH_iff]
    constructor
    · rintro ⟨h1, h2, h3⟩
      have hC := (hcand e).mp (mem_findHeads.mp h1).1
      refine ⟨hCmem e hC, ?_⟩
      intro f hf hx
      rw [hentries, List.mem_append] at hf
      rcases hf with hf | hf
      · exact h3 (Or.inl (hwl.2.2.2.2.2.2.2.1 f hf e.hash hx))
      · exact h2 ⟨f, hf, hx⟩
    · rintro ⟨he, hun⟩
      refine ⟨?_, ?_, ?_⟩
      · rw [mem_findHeads]
        refine ⟨(hcand e).mpr ?_, ?_⟩
        · rcases (hmem e).mp he with hl | ho
          · refine List.mem_append.mpr (Or.inl (hwl.2.2.2.2.2.1 e hl ?_))
            intro f hf
            exact hun f ((hmem f).mpr (Or.inl hf))
          · refine List.mem_append.mpr (Or.inr (hwo.2.2.2.2.2.1 e ho ?_))
            intro f hf
            exact hun f ((hmem f).mpr (Or.inr hf))
        · rintro ⟨f, hfc, hx⟩
          exact hun f (hCmem f ((hcand f).mp hfc)) hx
      · rintro ⟨g, hg, hx⟩
        refine hun g ?_ hx
        rw [hentries]
        exact List.mem_append.mpr (Or.inr hg)
      · rintro (h | ⟨g, hg, hx⟩)
        · obtain ⟨f, hf, hx⟩ := hwl.2.2.2.2.2.2.1 e.hash h
          exact hun f ((hmem f).mpr (Or.inl hf)) hx
        · refine hun g ?_ hx
          rw [hentries]
          exact List.mem_append.mpr (Or.inr hg)
  have hw1 : ∀ e ∈ (join l other).entries, e.logId = (join l other).id := by
    intro e he
    rw [join_id]
    rcases (hmem e).mp he with h | h
    · exact hwl.1 e h
    · rw [hid]
      exact hwo.1 e h
  have hw3 : ∀ e ∈ (join l other).entries, ∀ h ∈ e.next ++ e.refs,
      ∃ f ∈ (join l other).entries, f.hash = h := by
    intro e he x hx
    rcases (hmem e).mp he with h | h
    · obtain ⟨f, hf, hfh⟩ := hwl.2.2.1 e h x hx
      exact ⟨f, (hmem f).mpr (Or.inl hf), hfh⟩
    · obtain ⟨f, hf, hfh⟩ := hwo.2.2.1 e h x hx
      exact ⟨f, (hmem f).mpr (Or.inr hf), hfh⟩
  have hw4 : nodupHashes (join l other).headsIndex := by
    rw [hheadsJ]
    exact reduceByHash_nodup _
  have hw9 : ∀ f ∈ (join l other).entries, ∀ e ∈ (join l other).entries,
      e.hash ∈ f.next → e.time < f.time := by
    intro f hf e he hx
    rcases (hmem f).mp hf with hfl | hfo <;> rcases (hmem e).mp he with hel | heo
    · exact hwl.2.2.2.2.2.2.2.2.1 f hfl e hel hx
    · obtain ⟨e2, he2, heh⟩ := hwl.2.2.1 f hfl e.hash (List.mem_append.mpr (Or.inl hx))
      have hee : e = e2 := hcons e heo e2 he2 heh.symm
      rw [hee]
      exact hwl.2.2.2.2.2.2.2.2.1 f hfl e2 he2 (by rw [heh]; exact hx)
    · obtain ⟨e2, he2, heh⟩ := hwo.2.2.1 f hfo e.hash (List.mem_append.mpr (Or.inl hx))
      have hee : e2 = e := hcons e2 he2 e hel heh
      rw [← hee]
      exact hwo.2.2.2.2.2.2.2.2.1 f hfo e2 he2 (by rw [heh]; exact hx)
    · exact hwo.2.2.2.2.2.2.2.2.1 f hfo e heo hx
  have hw10 : (join l other).length = (join l other).entries.length := by
    have hflt : (difference other l).filter (fun e => (getEntry l e.hash).isNone)
        = difference other l :=
      List.filter_eq_self.mpr (fun e he => getEntry_isNone_iff.mpr ((hD e).mp he).2)
    rw [join_fields hid]
    dsimp only
    rw [hflt, entryAdd_eq_append _ l.entries hDdisj hDnd, List.length_append,
      hwl.2.2.2.2.2.2.2.2.2]
  have hwJ : WF (join l other) :=
    ⟨hw1, hndJ, hw3, hw4,
      fun e he => (hheads e).mp he,
      fun e he hun => (hheads e).mpr ⟨he, hun⟩,
      fun x hx => (hnext x).mp hx,
      fun f hf x hx => (hnext x).mpr ⟨f, hf, hx⟩,
      hw9, hw10⟩
  have hclkJ : (join l other).clockTime
      = max l.clockTime (mxT (join l other).headsIndex) := by
    rw [join_fields hid]
  refine ⟨hwJ, hmem, ?_⟩
  rw [hclkJ, mxT_heads_eq hwJ]

/-- Claim C1 (amended): `Log.join` is commutative and idempotent on
well-formed logs.  If `l`, `a` and `b` share one log id, each is well
formed (`WF`: resolvable references, unique hashes, exact heads and nexts
indices, strictly increasing clocks, correct length) and the three logs
pairwise agree on entries with equal hashes, then joining `a` and `b` into
`l` in either order produces the same final state (entry set, heads set,
length and clock time), and joining `a` twice equals joining it once. -/
theorem join_commutative_idempotent_wf (l a b : LogState)
    (hwl : WF l) (hwa : WF a) (hwb : WF b)
    (hal : ConsistentLogs a l) (hbl : ConsistentLogs b l) (hab : ConsistentLogs a b)
    (hia : l.id = a.id) (hib : l.id = b.id) :
    StateEq (join (join l a) b) (join (join l b) a) ∧
    StateEq (join (join l a) a) (join l a) := by
  obtain ⟨hwJa, hmemA, hclkA⟩ := join_spec hwl hwa hal hia
  obtain ⟨hwJb, hmemB, hclkB⟩ := join_spec hwl hwb hbl hib
  have hconsB1 : ConsistentLogs b (join l a) :=
    consistent_join_right hmemA hbl (consistent_symm hab)
  have hconsA2 : ConsistentLogs a (join l b) := consistent_join_right hmemB hal hab
  obtain ⟨hw1, hmem1, hclk1⟩ := join_spec hwJa hwb hconsB1 ((join_id l a).trans hib)
  obtain ⟨hw2, hmem2, hclk2⟩ := join_spec hwJb hwa hconsA2 ((join_id l b).trans hia)
  have hE : ∀ e, e ∈ (join (join l a) b).entries ↔ e ∈ (join (join l b) a).entries := by
    intro e
    rw [hmem1 e, hmem2 e, hmemA e, hmemB e]
    tauto
  have hT : mxT (join (join l a) b).entries = mxT (join (join l b) a).entries := mxT_congr hE
  have hsubA : mxT (join l a).entries ≤ mxT (join (join l a) b).entries :=
    mxT_le (fun e he => le_mxT ((hmem1 e).mpr (Or.inl he)))
  have hsubB : mxT (join l b).entries ≤ mxT (join (join l b) a).entries :=
    mxT_le (fun e he => le_mxT ((hmem2 e).mpr (Or.inl he)))
  have hclk : (join (join l a) b).clockTime = (join (join l b) a).clockTime := by
    rw [hclk1, hclk2, hclkA, hclkB, Nat.max_assoc, Nat.max_assoc,
      Nat.max_eq_right hsubA, Nat.max_eq_right hsubB, hT]
  refine ⟨stateEq_of_wf hw1 hw2 hE hclk, ?_⟩
  have haa : ConsistentLogs a (join l a) :=
    consistent_join_right hmemA hal (consistent_self hwa.2.1)
  obtain ⟨hwI, hmemI, hclkI⟩ := join_spec hwJa hwa haa ((join_id l a).trans hia)
  have hEI : ∀ e, e ∈ (join (join l a) a).entries ↔ e ∈ (join l a).entries := by
    intro e
    rw [hmemI e]
    constructor
    · rintro (h | h)
      · exact h
      · exact (hmemA e).mpr (Or.inr h)
    · exact Or.inl
  have hTI : mxT (join (join l a) a).entries = mxT (join l a).entries := mxT_congr hEI
  have hclkEq : (join (join l a) a).clockTime = (join l a).clockTime := by
    rw [hclkI, hTI]
    refine Nat.max_eq_left ?_
    rw [hclkA]
    exact le_max_right _ _
  exact stateEq_of_wf hwI hwJa hEI hclkEq

/-- Concrete instantiation of the amended claim C1: the empty log joined
with the single-root log and the two-entry log, in both orders, plus the
idempotent join. -/
theorem join_commutative_idempotent_wf_witness :
    StateEq (join (join logEmpty logOnlyRoot) logPair) (join (join logEmpty logPair) logOnlyRoot) ∧
    StateEq (join (join logEmpty logOnlyRoot) logOnlyRoot) (join logEmpty logOnlyRoot) :=
  join_commutative_idempotent_wf logEmpty logOnlyRoot logPair
    (by decide) (by decide) (by decide) (by decide) (by decide) (by decide)
    (by decide) (by decide)
